import Mathlib

/-!
Verification development for the generative-output repair and compilation
pipeline of the Auto-Academic-Paper repository (src/server/ai/utils.ts and
the LaTeX generator module).  Strings are modelled as `List Char`; every
scanning function of the source is embedded as a computable Lean function.
Recursive scanners take an explicit fuel argument (always instantiated with
the input length, which bounds the number of scanning steps, since every
step consumes at least one character); this keeps the definitions
structurally recursive and kernel-computable.
-/

namespace Spec2Proof

/-- Text is modelled as a list of characters. -/
abbrev L := List Char

/-- Convert a Lean string literal to the character-list model. -/
def toL (s : String) : L := s.toList

/-- The whitespace class of JavaScript regex `\s` (common ASCII part). -/
def isSpc (c : Char) : Bool :=
  c = ' ' || c = '\t' || c = '\n' || c = '\r' || c = '\x0b' || c = '\x0c'

/-- Strip an exact prefix, returning the remainder (JS `startsWith` + slice). -/
def dropPfx : L → L → Option L
  | [], s => some s
  | _ :: _, [] => none
  | p :: ps, c :: cs => if c = p then dropPfx ps cs else none

theorem dropPfx_self (p s : L) : dropPfx p (p ++ s) = some s := by
  induction p with
  | nil => rfl
  | cons c cs ih => simp [dropPfx, ih]

theorem dropPfx_eq_some {p s r : L} (h : dropPfx p s = some r) : s = p ++ r := by
  induction p generalizing s with
  | nil => simpa [dropPfx] using h
  | cons c cs ih =>
    cases s with
    | nil => simp [dropPfx] at h
    | cons x xs =>
      by_cases hx : x = c
      · subst hx
        simp only [dropPfx, if_pos rfl] at h
        simpa using ih h
      · simp [dropPfx, hx] at h

theorem takeWhile_append_of (p : Char → Bool) (a b : L)
    (ha : ∀ c ∈ a, p c = true) (hb : ∀ x, b.head? = some x → p x = false) :
    (a ++ b).takeWhile p = a ∧ (a ++ b).dropWhile p = b := by
  induction a with
  | nil =>
    cases b with
    | nil => simp
    | cons x xs =>
      have := hb x (by simp)
      simp [List.takeWhile, List.dropWhile, this]
  | cons c cs ih =>
    have hc : p c = true := ha c (by simp)
    have := ih (fun d hd => ha d (by simp [hd]))
    simp [List.takeWhile, List.dropWhile, hc, this.1, this.2]

theorem mem_of_mem_takeWhile {p : Char → Bool} {l : L} {c : Char}
    (h : c ∈ l.takeWhile p) : p c = true := by
  induction l with
  | nil => simp [List.takeWhile] at h
  | cons x xs ih =>
    by_cases hx : p x
    · simp [List.takeWhile, hx] at h
      rcases h with h | h
      · subst h; exact hx
      · exact ih (by simpa using h)
    · simp [List.takeWhile, hx] at h

/-- Parse a braced group `{name}` with nonempty name free of closing braces
(the `\{([^}]+)\}` tail of the environment-marker regexes). -/
def parseBraced : L → Option (L × L)
  | [] => none
  | c :: s2 =>
    if c = '{' then
      if (s2.dropWhile (fun x => !(x = '}'))).head? = some '}' then
        if s2.takeWhile (fun x => !(x = '}')) = [] then none
        else some (s2.takeWhile (fun x => !(x = '}')), (s2.dropWhile (fun x => !(x = '}'))).tail)
      else none
    else none

theorem parseBraced_eq_some {t name rest : L}
    (h : parseBraced t = some (name, rest)) :
    t = '{' :: (name ++ '}' :: rest) ∧ name ≠ [] ∧ ∀ c ∈ name, ¬(c = '}') := by
  cases t with
  | nil => exact absurd h (by simp [parseBraced])
  | cons c s2 =>
    by_cases hc : c = '{'
    · subst hc
      rw [parseBraced, if_pos rfl] at h
      by_cases hh : (s2.dropWhile (fun x => !(x = '}'))).head? = some '}'
      · rw [if_pos hh] at h
        by_cases hne : s2.takeWhile (fun x => !(x = '}')) = []
        · rw [if_pos hne] at h; exact absurd h (by simp)
        · rw [if_neg hne] at h
          obtain ⟨h1, h2⟩ : s2.takeWhile (fun x => !(x = '}')) = name
              ∧ (s2.dropWhile (fun x => !(x = '}'))).tail = rest := by
            have e := Option.some.inj h
            exact ⟨congrArg Prod.fst e, congrArg Prod.snd e⟩
          have hdw : s2.dropWhile (fun x => !(x = '}')) = '}' :: rest := by
            cases hb : s2.dropWhile (fun x => !(x = '}')) with
            | nil => rw [hb] at hh; simp at hh
            | cons b bs =>
              rw [hb] at hh h2
              simp at hh
              simp at h2
              rw [hh, h2]
          refine ⟨?_, by rw [← h1]; exact hne, ?_⟩
          · have hs2 : s2 = name ++ '}' :: rest := by
              conv_lhs =>
                rw [← List.takeWhile_append_dropWhile
                      (p := fun x => !(x = '}')) (l := s2)]
              rw [hdw, h1]
            rw [hs2]
          · intro d hd
            have := mem_of_mem_takeWhile (h1 ▸ hd)
            simpa using this
      · rw [if_neg hh] at h; exact absurd h (by simp)
    · rw [parseBraced, if_neg hc] at h; exact absurd h (by simp)

theorem parseBraced_self (name rest : L) (hne : name ≠ [])
    (hfree : ∀ c ∈ name, ¬(c = '}')) :
    parseBraced ('{' :: (name ++ '}' :: rest)) = some (name, rest) := by
  have hsplit := takeWhile_append_of (fun x => !(x = '}')) name ('}' :: rest)
    (fun c hc => by simpa using hfree c hc) (fun x hx => by
      simp at hx; subst hx; simp)
  rw [parseBraced, if_pos rfl, hsplit.1, hsplit.2]
  simp [hne]

/-! ## The Balance Repairer (`fixLatexBalance`, utils.ts lines 380-531) -/

/-- The literal text of a synthesised `\end{name}` close marker. -/
def mkEnd (name : L) : L := '\\' :: 'e' :: 'n' :: 'd' :: '{' :: (name ++ ['}'])

/-- The keyword of an environment-open marker, `\begin`. -/
def beginKw : L := ['\\', 'b', 'e', 'g', 'i', 'n']

/-- The keyword of an environment-close marker, `\end`. -/
def endKw : L := ['\\', 'e', 'n', 'd']

/-- Embedding of the regex `^\\begin\s*\{([^}]+)\}` (resp. `^\\end\s*\{([^}]+)\}`):
returns the captured name, the full matched text and the remainder. -/
def matchEnvTag (kw : L) (s : L) : Option (L × L × L) :=
  (dropPfx kw s).bind fun s1 =>
    (parseBraced (s1.dropWhile isSpc)).map fun pr =>
      (pr.1, kw ++ s1.takeWhile isSpc ++ '{' :: (pr.1 ++ ['}']), pr.2)

theorem matchEnvTag_eq_some {kw s n tok rest : L}
    (h : matchEnvTag kw s = some (n, tok, rest)) :
    s = tok ++ rest ∧ tok = kw ++ (s.drop kw.length).takeWhile isSpc ++ '{' :: (n ++ ['}'])
      ∧ n ≠ [] ∧ (∀ c ∈ n, ¬(c = '}')) ∧ (∀ c ∈ (s.drop kw.length).takeWhile isSpc, isSpc c) := by
  unfold matchEnvTag at h
  rw [Option.bind_eq_some] at h
  obtain ⟨s1, hd, h⟩ := h
  rw [Option.map_eq_some'] at h
  obtain ⟨pr, hp, hpr⟩ := h
  obtain ⟨name, rest'⟩ := pr
  simp only [Prod.mk.injEq] at hpr
  obtain ⟨h1, h2, h3⟩ := hpr
  subst h1 h3
  obtain ⟨hbr, hnn, hnf⟩ := parseBraced_eq_some hp
  have hskw : s = kw ++ s1 := dropPfx_eq_some hd
  have hdropkw : s.drop kw.length = s1 := by
    rw [hskw, List.drop_left]
  have hs1 : s1 = s1.takeWhile isSpc ++ ('{' :: (name ++ '}' :: rest')) := by
    conv_lhs => rw [← List.takeWhile_append_dropWhile (p := isSpc) (l := s1)]
    rw [hbr]
  refine ⟨?_, by rw [← h2, hdropkw], hnn, hnf, ?_⟩
  · rw [hskw, ← h2, hs1]
    simp only [List.append_assoc, List.cons_append, List.append_cancel_left_eq]
    have hsp := takeWhile_append_of isSpc (s1.takeWhile isSpc) ('{' :: (name ++ '}' :: rest'))
      (fun c hc => mem_of_mem_takeWhile hc)
      (fun x hx => by simp at hx; subst hx; simp [isSpc])
    rw [hsp.1]
    simp
  · intro c hc
    rw [hdropkw] at hc
    exact mem_of_mem_takeWhile hc

theorem matchEnvTag_length {kw s n tok rest : L}
    (h : matchEnvTag kw s = some (n, tok, rest)) :
    s.length = tok.length + rest.length ∧ kw.length + 2 ≤ tok.length := by
  obtain ⟨h1, h2, h3, _, _⟩ := matchEnvTag_eq_some h
  constructor
  · rw [h1]; simp
  · rw [h2]
    simp [List.length_append]
    omega

theorem matchEnvTag_refire {kw s n tok rest : L}
    (h : matchEnvTag kw s = some (n, tok, rest)) (X : L) :
    matchEnvTag kw (tok ++ X) = some (n, tok, X) := by
  obtain ⟨_, h2, hnn, hnf, hws⟩ := matchEnvTag_eq_some h
  set ws := (s.drop kw.length).takeWhile isSpc with hws'
  have htok : tok ++ X = kw ++ (ws ++ ('{' :: (n ++ '}' :: X))) := by
    rw [h2]; simp
  unfold matchEnvTag
  rw [htok, dropPfx_self]
  have hsp := takeWhile_append_of isSpc ws ('{' :: (n ++ '}' :: X))
    (fun c hc => hws c hc) (fun x hx => by
      simp at hx; subst hx; simp [isSpc])
  simp only [Option.bind]
  rw [hsp.1, hsp.2, parseBraced_self n X hnn hnf]
  simp [h2]

/-- One scanning state of the Balance Repairer: Normal / Escape / Comment. -/
inductive LMode
  | normal
  | escape
  | comment
deriving DecidableEq, Repr

/-- The appended closers at end of input: one `}` per outstanding brace,
then one `\end{...}` per remaining environment frame, innermost first. -/
def cleanup (depth : Nat) (stack : List L) : L :=
  List.replicate depth '}' ++ (stack.map mkEnd).flatten

/-- Effect of an `\end{name}` marker on the repairer state (utils.ts 426-492):
if the name occurs in the stack, flush outstanding braces, emit synthetic
close markers for every frame above the match (the top-of-stack match is the
instance with no intermediate frames), pop through it and emit the real tag;
an orphan close is emitted verbatim with no state change. -/
def handleEnd (depth : Nat) (stack : List L) (name tok : L) : L × Nat × List L :=
  if name ∈ stack then
    (List.replicate depth '}'
      ++ ((stack.takeWhile (fun e => !(e = name))).map mkEnd).flatten ++ tok,
     0,
     (stack.dropWhile (fun e => !(e = name))).tail)
  else (tok, depth, stack)

/-- The rebuilding scan of `fixLatexBalance` (utils.ts 380-518), with the
final cleanup of 520-528 emitted when the input (or the step fuel) runs out.
The state is (mode, brace depth, environment stack with innermost first). -/
def fixRun : Nat → LMode → Nat → List L → L → L
  | 0, _, depth, stack, _ => cleanup depth stack
  | _ + 1, _, depth, stack, [] => cleanup depth stack
  | fuel + 1, .escape, depth, stack, c :: rest => c :: fixRun fuel .normal depth stack rest
  | fuel + 1, .comment, depth, stack, c :: rest =>
    c :: fixRun fuel (if c = '\n' then .normal else .comment) depth stack rest
  | fuel + 1, .normal, depth, stack, c :: rest =>
    if c = '\\' then
      match matchEnvTag beginKw (c :: rest) with
      | some (name, tok, r) => tok ++ fixRun fuel .normal depth (name :: stack) r
      | none =>
        match matchEnvTag endKw (c :: rest) with
        | some (name, tok, r) =>
          (handleEnd depth stack name tok).1
            ++ fixRun fuel .normal (handleEnd depth stack name tok).2.1
                 (handleEnd depth stack name tok).2.2 r
        | none => c :: fixRun fuel .escape depth stack rest
    else if c = '%' then c :: fixRun fuel .comment depth stack rest
    else if c = '{' then c :: fixRun fuel .normal (depth + 1) stack rest
    else if c = '}' then c :: fixRun fuel .normal (depth - 1) stack rest
    else c :: fixRun fuel .normal depth stack rest

/-- The Balance Repairer `fixLatexBalance` (utils.ts 380-531). -/
def fixLatexBalance (s : L) : L := fixRun s.length .normal 0 [] s

/-- The scan state (mode, brace depth, environment stack). -/
structure ScanSt where
  mode : LMode
  depth : Nat
  stack : List L
deriving DecidableEq, Repr

/-- The pure state-tracking scan of the Balance Repairer: the same rules as
`fixRun`, recording only the final mode, brace depth and environment stack. -/
def scanRun : Nat → ScanSt → L → ScanSt
  | 0, st, _ => st
  | _ + 1, st, [] => st
  | fuel + 1, ⟨.escape, d, k⟩, _ :: rest => scanRun fuel ⟨.normal, d, k⟩ rest
  | fuel + 1, ⟨.comment, d, k⟩, c :: rest =>
    scanRun fuel ⟨if c = '\n' then .normal else .comment, d, k⟩ rest
  | fuel + 1, ⟨.normal, d, k⟩, c :: rest =>
    if c = '\\' then
      match matchEnvTag beginKw (c :: rest) with
      | some (name, _, r) => scanRun fuel ⟨.normal, d, name :: k⟩ r
      | none =>
        match matchEnvTag endKw (c :: rest) with
        | some (name, tok, r) =>
          scanRun fuel ⟨.normal, (handleEnd d k name tok).2.1, (handleEnd d k name tok).2.2⟩ r
        | none => scanRun fuel ⟨.escape, d, k⟩ rest
    else if c = '%' then scanRun fuel ⟨.comment, d, k⟩ rest
    else if c = '{' then scanRun fuel ⟨.normal, d + 1, k⟩ rest
    else if c = '}' then scanRun fuel ⟨.normal, d - 1, k⟩ rest
    else scanRun fuel ⟨.normal, d, k⟩ rest

/-- Scan a document from the initial state by the rules of the repairer. -/
def latexScan (s : L) : ScanSt := scanRun s.length ⟨.normal, 0, []⟩ s

/-- Relation: the second list is obtained from the first purely by inserting
extra `}` characters and extra `\end{...}` close markers, never deleting or
reordering characters of the first. -/
inductive OnlyInserts : L → L → Prop
  | nil : OnlyInserts [] []
  | copy (c : Char) {s t : L} : OnlyInserts s t → OnlyInserts (c :: s) (c :: t)
  | insBrace {s t : L} : OnlyInserts s t → OnlyInserts s ('}' :: t)
  | insEnd (name : L) {s t : L} : OnlyInserts s t → OnlyInserts s (mkEnd name ++ t)

theorem OnlyInserts.append_left {s t : L} (u : L) (h : OnlyInserts s t) :
    OnlyInserts (u ++ s) (u ++ t) := by
  induction u with
  | nil => simpa
  | cons c cs ih => exact OnlyInserts.copy c ih

theorem OnlyInserts.braces {s t : L} (d : Nat) (h : OnlyInserts s t) :
    OnlyInserts s (List.replicate d '}' ++ t) := by
  induction d with
  | zero => simpa
  | succ n ih =>
    rw [List.replicate_succ, List.cons_append]
    exact OnlyInserts.insBrace ih

theorem OnlyInserts.ends {s t : L} (ks : List L) (h : OnlyInserts s t) :
    OnlyInserts s ((ks.map mkEnd).flatten ++ t) := by
  induction ks with
  | nil => simpa
  | cons k ks ih =>
    rw [List.map_cons, List.flatten_cons, List.append_assoc]
    exact OnlyInserts.insEnd k ih

theorem OnlyInserts.cleanup_nil (d : Nat) (stack : List L) :
    OnlyInserts [] (cleanup d stack) := by
  have h0 : OnlyInserts [] ((stack.map mkEnd).flatten ++ []) :=
    OnlyInserts.ends stack OnlyInserts.nil
  rw [List.append_nil] at h0
  exact OnlyInserts.braces d h0

theorem OnlyInserts.sublist {s t : L} (h : OnlyInserts s t) : s.Sublist t := by
  induction h with
  | nil => exact List.Sublist.refl []
  | copy c _ ih => exact ih.cons₂ c
  | insBrace _ ih => exact ih.cons '}'
  | insEnd name _ ih =>
    exact ih.trans (List.sublist_append_right (mkEnd name) _)

theorem onlyInserts_fixRun (fuel : Nat) :
    ∀ (mode : LMode) (d : Nat) (k : List L) (s : L), s.length ≤ fuel →
      OnlyInserts s (fixRun fuel mode d k s) := by
  induction fuel with
  | zero =>
    intro mode d k s hs
    have : s = [] := List.length_eq_zero.mp (Nat.le_zero.mp hs)
    subst this
    exact OnlyInserts.cleanup_nil d k
  | succ fuel ih =>
    intro mode d k s hs
    cases s with
    | nil => cases mode <;> exact OnlyInserts.cleanup_nil d k
    | cons c rest =>
      have hr : rest.length ≤ fuel := by simpa using hs
      cases mode with
      | escape => exact OnlyInserts.copy c (ih .normal d k rest hr)
      | comment => exact OnlyInserts.copy c (ih _ d k rest hr)
      | normal =>
        by_cases hc : c = '\\'
        · rw [fixRun, if_pos hc]
          cases hbm : matchEnvTag beginKw (c :: rest) with
          | some pr =>
            obtain ⟨name, tok, r⟩ := pr
            have hsplit := (matchEnvTag_eq_some hbm).1
            have hlen := matchEnvTag_length hbm
            have hrlen : r.length ≤ fuel := by
              simp [beginKw] at hlen
              simp at hs
              omega
            rw [hsplit]
            exact OnlyInserts.append_left tok (ih .normal d (name :: k) r hrlen)
          | none =>
            cases hem : matchEnvTag endKw (c :: rest) with
            | some pr =>
              obtain ⟨name, tok, r⟩ := pr
              have hsplit := (matchEnvTag_eq_some hem).1
              have hlen := matchEnvTag_length hem
              have hrlen : r.length ≤ fuel := by
                simp [endKw] at hlen
                simp at hs
                omega
              rw [hsplit]
              by_cases hmem : name ∈ k
              · simp only [handleEnd, hmem, if_true, List.append_assoc]
                exact OnlyInserts.braces d (OnlyInserts.ends _
                  (OnlyInserts.append_left tok (ih .normal 0 _ r hrlen)))
              · simp only [handleEnd, hmem, if_false]
                exact OnlyInserts.append_left tok (ih .normal d k r hrlen)
            | none =>
              exact OnlyInserts.copy c (ih .escape d k rest hr)
        · rw [fixRun, if_neg hc]
          by_cases h1 : c = '%'
          · rw [if_pos h1]; exact OnlyInserts.copy c (ih .comment d k rest hr)
          · rw [if_neg h1]
            by_cases h2 : c = '{'
            · rw [if_pos h2]; exact OnlyInserts.copy c (ih .normal (d + 1) k rest hr)
            · rw [if_neg h2]
              by_cases h3 : c = '}'
              · rw [if_pos h3]; exact OnlyInserts.copy c (ih .normal (d - 1) k rest hr)
              · rw [if_neg h3]; exact OnlyInserts.copy c (ih .normal d k rest hr)

/-- C10: the Balance Repairer never deletes or reorders input characters —
the input is a subsequence of the output, and the output differs from the
input only by inserted `}` characters and inserted `\end{...}` close markers. -/
theorem fixLatexBalance_only_inserts (s : L) :
    OnlyInserts s (fixLatexBalance s) ∧ s.Sublist (fixLatexBalance s) := by
  have h := onlyInserts_fixRun s.length .normal 0 [] s (le_refl _)
  exact ⟨h, h.sublist⟩

theorem fix_scan_bsfree (fuel : Nat) :
    ∀ (mode : LMode) (d : Nat) (s : L), '\\' ∉ s → s.length ≤ fuel →
      (scanRun fuel ⟨mode, d, []⟩ s).stack = []
        ∧ fixRun fuel mode d [] s = s ++ List.replicate (scanRun fuel ⟨mode, d, []⟩ s).depth '}' := by
  induction fuel with
  | zero =>
    intro mode d s hbs hs
    have : s = [] := List.length_eq_zero.mp (Nat.le_zero.mp hs)
    subst this
    exact ⟨rfl, by simp [fixRun, scanRun, cleanup]⟩
  | succ fuel ih =>
    intro mode d s hbs hs
    cases s with
    | nil =>
      refine ⟨?_, ?_⟩ <;> cases mode <;> simp [fixRun, scanRun, cleanup]
    | cons c rest =>
      have hbsr : '\\' ∉ rest := fun hmem => hbs (List.mem_cons_of_mem c hmem)
      have hbc : ¬ (c = '\\') := fun hc => hbs (hc ▸ List.mem_cons_self c rest)
      have hr : rest.length ≤ fuel := by simpa using hs
      cases mode with
      | escape =>
        have := ih .normal d rest hbsr hr
        simpa [fixRun, scanRun] using this
      | comment =>
        have := ih (if c = '\n' then .normal else .comment) d rest hbsr hr
        by_cases hn : c = '\n' <;> simp [fixRun, scanRun, hn] at this ⊢ <;> exact this
      | normal =>
        by_cases h1 : c = '%'
        · have := ih .comment d rest hbsr hr
          simpa [fixRun, scanRun, hbc, h1] using this
        · by_cases h2 : c = '{'
          · have := ih .normal (d + 1) rest hbsr hr
            simpa [fixRun, scanRun, hbc, h1, h2] using this
          · by_cases h3 : c = '}'
            · have := ih .normal (d - 1) rest hbsr hr
              simpa [fixRun, scanRun, hbc, h1, h2, h3] using this
            · have := ih .normal d rest hbsr hr
              simpa [fixRun, scanRun, hbc, h1, h2, h3] using this

theorem scan_append_bsfree (a : L) :
    ∀ (st : ScanSt) (b : L) (f : Nat), '\\' ∉ a →
      scanRun (a.length + f) st (a ++ b) = scanRun f (scanRun a.length st a) b := by
  induction a with
  | nil => intro st b f _; simp [scanRun]
  | cons c rest ih =>
    intro st b f hbs
    have hbsr : '\\' ∉ rest := fun hmem => hbs (List.mem_cons_of_mem c hmem)
    have hbc : ¬ (c = '\\') := fun hc => hbs (hc ▸ List.mem_cons_self c rest)
    have hlen : (c :: rest).length + f = (rest.length + f) + 1 := by simp; omega
    have hlen2 : (c :: rest).length = rest.length + 1 := by simp
    obtain ⟨m, d, k⟩ := st
    rw [hlen, hlen2]
    cases m with
    | escape => simp only [List.cons_append, scanRun]; exact ih _ b f hbsr
    | comment => simp only [List.cons_append, scanRun]; exact ih _ b f hbsr
    | normal =>
      by_cases h1 : c = '%'
      · simp only [List.cons_append, scanRun, hbc, h1, if_false, if_true]
        exact ih _ b f hbsr
      · by_cases h2 : c = '{'
        · simp only [List.cons_append, scanRun, hbc, h1, h2, if_false, if_true]
          exact ih _ b f hbsr
        · by_cases h3 : c = '}'
          · simp only [List.cons_append, scanRun, hbc, h1, h2, h3, if_false, if_true]
            exact ih _ b f hbsr
          · simp only [List.cons_append, scanRun, hbc, h1, h2, h3, if_false]
            exact ih _ b f hbsr

theorem scan_close_braces (d : Nat) :
    ∀ (extra : Nat), scanRun (d + extra) ⟨.normal, d, []⟩ (List.replicate d '}') = ⟨.normal, 0, []⟩ := by
  induction d with
  | zero => intro extra; cases extra <;> simp [scanRun]
  | succ n ih =>
    intro extra
    have hfuel : n + 1 + extra = (n + extra) + 1 := by omega
    rw [hfuel, List.replicate_succ]
    have hne : ¬ (('}' : Char) = '\\') := by decide
    have h1 : ¬ (('}' : Char) = '%') := by decide
    have h2 : ¬ (('}' : Char) = '{') := by decide
    simp only [scanRun, hne, h1, h2, if_false, if_true, Nat.add_sub_cancel]
    exact ih extra

theorem latexScan_state (s : L) (hbs : '\\' ∉ s) (hm : (latexScan s).mode = LMode.normal) :
    latexScan s = ⟨.normal, (latexScan s).depth, []⟩ := by
  have h' : (latexScan s).stack = [] :=
    (fix_scan_bsfree s.length .normal 0 s hbs (le_refl _)).1
  have heta : latexScan s = ⟨(latexScan s).mode, (latexScan s).depth, (latexScan s).stack⟩ := rfl
  rw [heta, hm, h']

theorem rescan_balanced_core (s : L) (hbs : '\\' ∉ s)
    (hm : (latexScan s).mode = LMode.normal) :
    latexScan (fixLatexBalance s) = ⟨.normal, 0, []⟩ := by
  have hfix : fixLatexBalance s = s ++ List.replicate (latexScan s).depth '}' :=
    (fix_scan_bsfree s.length .normal 0 s hbs (le_refl _)).2
  have hlen : (fixLatexBalance s).length = s.length + (latexScan s).depth := by
    rw [hfix]; simp
  have hrw : latexScan (fixLatexBalance s)
      = scanRun (s.length + (latexScan s).depth) ⟨.normal, 0, []⟩
          (s ++ List.replicate (latexScan s).depth '}') := by
    rw [latexScan, hlen, hfix]
  rw [hrw, scan_append_bsfree s _ _ _ hbs]
  have hst : scanRun s.length ⟨.normal, 0, []⟩ s = ⟨.normal, (latexScan s).depth, []⟩ :=
    latexScan_state s hbs hm
  rw [hst]
  have := scan_close_braces (latexScan s).depth 0
  simpa using this

/-- C2 (amended): the Balance Repairer is total by construction, and for
inputs containing no backslash whose scan does not end inside a comment,
its output, scanned by the same rules, has brace depth zero and an empty
environment stack at end of document.  (In general this fails: a trailing
escape or comment can absorb the appended closers, see the counterexample.) -/
theorem fixLatexBalance_rescan_balanced (s : L) (hbs : '\\' ∉ s)
    (hm : (latexScan s).mode = LMode.normal) :
    latexScan (fixLatexBalance s) = ⟨.normal, 0, []⟩ :=
  rescan_balanced_core s hbs hm

/-- C2 counterexample: on the two-character input `{\` the repairer appends
the missing `}` after the trailing escape character, so rescanning its
output `{\}` ends at brace depth 1, not 0. -/
theorem fixLatexBalance_rescan_cex :
    ¬ ((latexScan (fixLatexBalance ['{', '\\'])).depth = 0
        ∧ (latexScan (fixLatexBalance ['{', '\\'])).stack = []) := by
  decide

theorem fixLatexBalance_rescan_witness :
    '\\' ∉ (['{', 'a'] : L) ∧ (latexScan ['{', 'a']).mode = LMode.normal
      ∧ latexScan (fixLatexBalance ['{', 'a']) = ⟨.normal, 0, []⟩ :=
  ⟨by decide, by decide, fixLatexBalance_rescan_balanced ['{', 'a'] (by decide) (by decide)⟩

theorem idem_core (s : L) (hbs : '\\' ∉ s) (hm : (latexScan s).mode = LMode.normal) :
    fixLatexBalance (fixLatexBalance s) = fixLatexBalance s := by
  have hfix : fixLatexBalance s = s ++ List.replicate (latexScan s).depth '}' :=
    (fix_scan_bsfree s.length .normal 0 s hbs (le_refl _)).2
  have hbs2 : '\\' ∉ fixLatexBalance s := by
    rw [hfix]
    intro hmem
    rcases List.mem_append.mp hmem with h | h
    · exact hbs h
    · have := List.eq_of_mem_replicate h
      simp at this
  have h2 : fixLatexBalance (fixLatexBalance s)
      = fixLatexBalance s ++ List.replicate (latexScan (fixLatexBalance s)).depth '}' :=
    (fix_scan_bsfree (fixLatexBalance s).length .normal 0 _ hbs2 (le_refl _)).2
  rw [h2, rescan_balanced_core s hbs hm]
  simp

/-- C3 (amended): the Balance Repairer is idempotent on inputs containing no
backslash whose scan does not end inside a comment.  (In general idempotence
fails: closers appended after a trailing escape or comment are re-read as
escaped or commented text on the second pass, see the counterexample.) -/
theorem fixLatexBalance_idem_bsfree (s : L) (hbs : '\\' ∉ s)
    (hm : (latexScan s).mode = LMode.normal) :
    fixLatexBalance (fixLatexBalance s) = fixLatexBalance s :=
  idem_core s hbs hm

/-- C3 counterexample: on the input `{%` the appended `}` lands inside the
trailing comment, so a second application appends one more `}`. -/
theorem fixLatexBalance_idem_cex :
    fixLatexBalance (fixLatexBalance ['{', '%']) ≠ fixLatexBalance ['{', '%'] := by
  decide

theorem fixLatexBalance_idem_witness :
    '\\' ∉ (['a', '{'] : L) ∧ (latexScan ['a', '{']).mode = LMode.normal
      ∧ fixLatexBalance (fixLatexBalance ['a', '{']) = fixLatexBalance ['a', '{'] :=
  ⟨by decide, by decide, fixLatexBalance_idem_bsfree ['a', '{'] (by decide) (by decide)⟩

/-! ## The Special-Character Escaper (`escapeTextAmpersands`, utils.ts 140-293) -/

/-- Substring search (JS `String.indexOf`), returning the first index. -/
def findSub (pat : L) : L → Option Nat
  | [] => if pat = [] then some 0 else none
  | c :: rest =>
    if (dropPfx pat (c :: rest)).isSome then some 0
    else (findSub pat rest).map (· + 1)

/-- The document-start marker searched for by the preamble split. -/
def docTag : L := toL "\\begin{document}"

/-- Environments in which `&` is structural (utils.ts 159-163). -/
def structuralEnvs : List L :=
  [toL "tabular", toL "tabular*", toL "tabularx", toL "longtable",
   toL "align", toL "align*", toL "alignat", toL "split", toL "cases",
   toL "array", toL "matrix", toL "bmatrix", toL "pmatrix", toL "vmatrix",
   toL "Vmatrix"]

/-- Commands whose arguments are copied verbatim (utils.ts 165). -/
def verbatimCmds : List L := [toL "url", toL "href", toL "code", toL "verb"]

/-- Character class of the command-name regex `^\\([a-zA-Z@]+)`. -/
def isCmdChar (c : Char) : Bool := c.isAlpha || c = '@'

/-- Embedding of the command matcher `^\\([a-zA-Z@]+)`:
returns the command name and the remainder. -/
def cmdMatch : L → Option (L × L)
  | [] => none
  | c :: rest =>
    if c = '\\' then
      if rest.takeWhile isCmdChar = [] then none
      else some (rest.takeWhile isCmdChar, rest.dropWhile isCmdChar)
    else none

/-- Copy characters by raw open/close-delimiter depth counting, starting at
the given depth (the argument-skipping loops of utils.ts 192-197/205-211). -/
def copyDelim (op cl : Char) : Nat → L → L × L
  | 0, s => ([], s)
  | _ + 1, [] => ([], [])
  | d + 1, c :: rest =>
    let d' := if c = op then d + 2 else if c = cl then d else d + 1
    ((c :: (copyDelim op cl d' rest).1), (copyDelim op cl d' rest).2)

/-- Normalisation used for the structural check on a stack entry:
strip one trailing `*` (regex `/\*$/`), then test set membership. -/
def isStructuralName (e : L) : Bool :=
  structuralEnvs.contains (if e.getLast? = some '*' then e.dropLast else e)

/-- Strip the first `*` anywhere (regex `/\*/` without anchors, utils.ts 233). -/
def stripFirstStar : L → L
  | [] => []
  | c :: rest => if c = '*' then rest else c :: stripFirstStar rest

/-- Condition under which an `\end{name}` marker pops the top of the stack
(utils.ts 233): exact match, match up to a first star, or structural top. -/
def endPops (top name : L) : Bool :=
  top = name || stripFirstStar top = stripFirstStar name || structuralEnvs.contains top

/-- Stack effect of an `\end{name}` marker in the escaper (utils.ts 229-236). -/
def popEnd (stack : List L) (name : L) : List L :=
  match stack with
  | [] => []
  | top :: others => if endPops top name then others else top :: others

/-- If the text begins a verbatim command, return the copied text (command
plus optional bracket argument plus mandatory brace argument, all copied by
raw depth counting) and the remainder (utils.ts 177-214). -/
def verbSeg (s : L) : Option (L × L) :=
  match cmdMatch s with
  | some (nm, r1) =>
    if verbatimCmds.contains nm then
      let p1 : L × L :=
        match r1 with
        | '[' :: r1' => ('[' :: (copyDelim '[' ']' 1 r1').1, (copyDelim '[' ']' 1 r1').2)
        | _ => ([], r1)
      let p2 : L × L :=
        match p1.2 with
        | '{' :: r2' => ('{' :: (copyDelim '{' '}' 1 r2').1, (copyDelim '{' '}' 1 r2').2)
        | _ => ([], p1.2)
      some ('\\' :: nm ++ p1.1 ++ p2.1, p2.2)
    else none
  | none => none

/-- The body scan of the Special-Character Escaper (utils.ts 156-289). -/
def ampRun : Nat → List L → L → L
  | 0, _, _ => []
  | _ + 1, _, [] => []
  | fuel + 1, stack, c :: rest =>
    if c = '\\' then
      match verbSeg (c :: rest) with
      | some (cp, r3) => cp ++ ampRun fuel stack r3
      | none =>
        match matchEnvTag beginKw (c :: rest) with
        | some (name, tok, r) => tok ++ ampRun fuel (name :: stack) r
        | none =>
          match matchEnvTag endKw (c :: rest) with
          | some (name, tok, r) => tok ++ ampRun fuel (popEnd stack name) r
          | none => '\\' :: rest.take 1 ++ ampRun fuel stack (rest.drop 1)
    else if c = '%' then
      ('%' :: rest.takeWhile (fun x => !(x = '\n')))
        ++ ampRun fuel stack (rest.dropWhile (fun x => !(x = '\n')))
    else if c = '&' then
      (if stack.any isStructuralName then ['&'] else ['\\', '&']) ++ ampRun fuel stack rest
    else c :: ampRun fuel stack rest

/-- The Special-Character Escaper `escapeTextAmpersands` (utils.ts 140-293):
the segment before `\begin{document}` is untouched, the rest is scanned. -/
def escapeTextAmpersands (latex : L) : L :=
  match findSub docTag latex with
  | none => ampRun latex.length [] latex
  | some i => latex.take i ++ ampRun (latex.drop i).length [] (latex.drop i)

theorem dropPfx_head_ne {pat : L} {p c : Char} {ps rest : L}
    (hp : pat = p :: ps) (hne : ¬(c = p)) : dropPfx pat (c :: rest) = none := by
  subst hp
  simp [dropPfx, hne]

theorem findSub_bs_none (s : L) (hbs : '\\' ∉ s) : findSub docTag s = none := by
  induction s with
  | nil => simp [findSub, docTag, toL]
  | cons c rest ih =>
    have hc : ¬(c = '\\') := fun h => hbs (h ▸ List.mem_cons_self c rest)
    have hr : '\\' ∉ rest := fun h => hbs (List.mem_cons_of_mem c h)
    have hdoc : docTag = '\\' :: toL "begin{document}" := by decide
    rw [findSub, dropPfx_head_ne hdoc hc]
    simp [ih hr]

theorem escapeTextAmpersands_eq_ampRun (s : L) (hbs : '\\' ∉ s.tail) :
    escapeTextAmpersands s = ampRun s.length [] s := by
  cases s with
  | nil => rfl
  | cons c rest =>
    have hfs : findSub docTag (c :: rest) = none ∨ findSub docTag (c :: rest) = some 0 := by
      rw [findSub]
      by_cases hh : (dropPfx docTag (c :: rest)).isSome
      · right; rw [if_pos hh]
      · left
        rw [if_neg hh, findSub_bs_none rest (by simpa using hbs)]
        rfl
    rcases hfs with h | h
    · rw [escapeTextAmpersands, h]
    · rw [escapeTextAmpersands, h]
      simp

theorem ampRun_nil (f : Nat) (stack : List L) : ampRun f stack [] = [] := by
  cases f <;> rfl

theorem ampRun_copy (t : L) (hp : ∀ c ∈ t, ¬(c = '\\') ∧ ¬(c = '%') ∧ ¬(c = '&')) :
    ∀ (stack : List L) (X : L) (f : Nat),
      ampRun (t.length + f) stack (t ++ X) = t ++ ampRun f stack X := by
  induction t with
  | nil => intro stack X f; simp
  | cons c t' ih =>
    intro stack X f
    obtain ⟨h1, h2, h3⟩ := hp c (List.mem_cons_self c t')
    have hlen : (c :: t').length + f = (t'.length + f) + 1 := by simp; omega
    rw [hlen, List.cons_append, ampRun.eq_def]
    simp only [if_neg h1, if_neg h2, if_neg h3]
    rw [ih (fun d hd => hp d (List.mem_cons_of_mem c hd)) stack X f]
    simp

/-- The environment-open marker `\begin{e}` as literal text. -/
def envOpen (e : L) : L := beginKw ++ '{' :: (e ++ ['}'])

theorem matchEnvTag_envOpen (e X : L) (hne : e ≠ []) (hfree : '}' ∉ e) :
    matchEnvTag beginKw (envOpen e ++ X) = some (e, envOpen e, X) := by
  have harr : envOpen e ++ X = beginKw ++ ('{' :: (e ++ '}' :: X)) := by
    simp [envOpen]
  rw [harr]
  unfold matchEnvTag
  rw [dropPfx_self]
  simp only [Option.bind]
  have ht : List.takeWhile isSpc ('{' :: (e ++ '}' :: X)) = [] := by
    simp [List.takeWhile, isSpc]
  have hd : List.dropWhile isSpc ('{' :: (e ++ '}' :: X)) = '{' :: (e ++ '}' :: X) := by
    simp [List.dropWhile, isSpc]
  rw [ht, hd, parseBraced_self e X hne (fun c hc => fun he => hfree (he ▸ hc))]
  simp [envOpen]

theorem verbSeg_envOpen (e X : L) : verbSeg (envOpen e ++ X) = none := by
  have harr : envOpen e ++ X = '\\' :: (toL "begin" ++ ('{' :: (e ++ '}' :: X))) := by
    simp [envOpen, beginKw, toL]
  rw [harr]
  have hsp := takeWhile_append_of isCmdChar (toL "begin") ('{' :: (e ++ '}' :: X))
    (by decide)
    (fun x hx => by simp at hx; subst hx; decide)
  rw [verbSeg, cmdMatch, if_pos rfl, hsp.1]
  have hbegin_ne : (toL "begin" : L) ≠ [] := by decide
  rw [if_neg hbegin_ne]
  have hmem : verbatimCmds.contains (toL "begin") = false := by decide
  simp only [hmem]
  simp

theorem ampRun_amp (stack : List L) (t2 : L) (f : Nat) :
    ampRun (f + 1) stack ('&' :: t2)
      = (if stack.any isStructuralName then ['&'] else ['\\', '&']) ++ ampRun f stack t2 := by
  rw [ampRun.eq_def]
  simp

theorem ampRun_bs_step (fuel : Nat) (stack : List L) (rest : L) :
    ampRun (fuel + 1) stack ('\\' :: rest)
      = match verbSeg ('\\' :: rest) with
        | some (cp, r3) => cp ++ ampRun fuel stack r3
        | none =>
          match matchEnvTag beginKw ('\\' :: rest) with
          | some (name, tok, r) => tok ++ ampRun fuel (name :: stack) r
          | none =>
            match matchEnvTag endKw ('\\' :: rest) with
            | some (name, tok, r) => tok ++ ampRun fuel (popEnd stack name) r
            | none => '\\' :: rest.take 1 ++ ampRun fuel stack (rest.drop 1) := rfl

theorem amp_part1 (e t1 t2 : L)
    (hstruct : isStructuralName e = true)
    (hne : e ≠ []) (hbse : '\\' ∉ e) (hbre : '}' ∉ e)
    (ht1 : ∀ c ∈ t1, ¬(c = '\\') ∧ ¬(c = '%') ∧ ¬(c = '&'))
    (ht2 : ∀ c ∈ t2, ¬(c = '\\') ∧ ¬(c = '%') ∧ ¬(c = '&')) :
    escapeTextAmpersands (envOpen e ++ (t1 ++ '&' :: t2)) = envOpen e ++ (t1 ++ '&' :: t2) := by
  have htail : envOpen e ++ (t1 ++ '&' :: t2)
      = '\\' :: (toL "begin" ++ ('{' :: (e ++ '}' :: (t1 ++ '&' :: t2)))) := by
    simp [envOpen, beginKw, toL]
  have hbsR : '\\' ∉ (toL "begin" ++ ('{' :: (e ++ '}' :: (t1 ++ '&' :: t2)))) := by
    intro h
    rcases List.mem_append.mp h with h | h
    · exact absurd h (by decide)
    · rcases List.mem_cons.mp h with h | h
      · exact absurd h (by decide)
      · rcases List.mem_append.mp h with h | h
        · exact hbse h
        · rcases List.mem_cons.mp h with h | h
          · exact absurd h (by decide)
          · rcases List.mem_append.mp h with h | h
            · exact (ht1 _ h).1 rfl
            · rcases List.mem_cons.mp h with h | h
              · exact absurd h (by decide)
              · exact (ht2 _ h).1 rfl
  have hbs : '\\' ∉ (envOpen e ++ (t1 ++ '&' :: t2)).tail := by
    rw [htail]
    exact hbsR
  rw [escapeTextAmpersands_eq_ampRun _ hbs]
  have hvs : verbSeg ('\\' :: (toL "begin" ++ ('{' :: (e ++ '}' :: (t1 ++ '&' :: t2))))) = none := by
    rw [← htail]
    exact verbSeg_envOpen e _
  have hbm : matchEnvTag beginKw
      ('\\' :: (toL "begin" ++ ('{' :: (e ++ '}' :: (t1 ++ '&' :: t2)))))
      = some (e, envOpen e, t1 ++ '&' :: t2) := by
    rw [← htail]
    exact matchEnvTag_envOpen e _ hne hbre
  conv_lhs => rw [htail]
  simp only [List.length_cons]
  rw [ampRun_bs_step, hvs, hbm]
  show envOpen e
      ++ ampRun (toL "begin" ++ ('{' :: (e ++ '}' :: (t1 ++ '&' :: t2)))).length [e] (t1 ++ '&' :: t2)
    = envOpen e ++ (t1 ++ '&' :: t2)
  congr 1
  have h5 : (toL "begin").length = 5 := by decide
  have hf1 : (toL "begin" ++ ('{' :: (e ++ '}' :: (t1 ++ '&' :: t2)))).length
      = t1.length + (e.length + 8 + t2.length) := by
    simp [h5]
    omega
  rw [hf1, ampRun_copy t1 ht1]
  congr 1
  have hf2 : e.length + 8 + t2.length = (e.length + 7 + t2.length) + 1 := by omega
  rw [hf2, ampRun_amp]
  have hany : ([e] : List L).any isStructuralName = true := by simp [hstruct]
  rw [hany, if_pos rfl]
  have hcp := ampRun_copy t2 ht2 [e] [] (e.length + 7)
  rw [List.append_nil, ampRun_nil, List.append_nil] at hcp
  have hf3 : e.length + 7 + t2.length = t2.length + (e.length + 7) := by omega
  rw [hf3, hcp]
  rfl

theorem amp_part2 (t1 t2 : L)
    (ht1 : ∀ c ∈ t1, ¬(c = '\\') ∧ ¬(c = '%') ∧ ¬(c = '&'))
    (ht2 : ∀ c ∈ t2, ¬(c = '\\') ∧ ¬(c = '%') ∧ ¬(c = '&')) :
    escapeTextAmpersands (t1 ++ '&' :: t2) = t1 ++ '\\' :: '&' :: t2 := by
  have hbs : '\\' ∉ (t1 ++ '&' :: t2).tail := by
    intro h
    have hsub := (List.tail_sublist (t1 ++ '&' :: t2)).subset h
    rcases List.mem_append.mp hsub with h' | h'
    · exact (ht1 _ h').1 rfl
    · rcases List.mem_cons.mp h' with h' | h'
      · exact absurd h' (by decide)
      · exact (ht2 _ h').1 rfl
  rw [escapeTextAmpersands_eq_ampRun _ hbs]
  have hlen : (t1 ++ '&' :: t2).length = t1.length + (t2.length + 1) := by
    simp
  rw [hlen, ampRun_copy t1 ht1, ampRun_amp]
  have hcp := ampRun_copy t2 ht2 [] [] 0
  rw [List.append_nil, ampRun_nil, List.append_nil, Nat.add_zero] at hcp
  simp [hcp]

/-- C8: in the Special-Character Escaper, an unescaped `&` under an open
structural environment is copied through unescaped, while an unescaped `&`
with no environment open (outside verbatim arguments and comments) is
replaced by `\&`; stated for a plain-text context around the `&`. -/
theorem escapeTextAmpersands_structural (e t1 t2 : L)
    (hstruct : isStructuralName e = true)
    (hne : e ≠ []) (hbse : '\\' ∉ e) (hbre : '}' ∉ e)
    (ht1 : ∀ c ∈ t1, ¬(c = '\\') ∧ ¬(c = '%') ∧ ¬(c = '&'))
    (ht2 : ∀ c ∈ t2, ¬(c = '\\') ∧ ¬(c = '%') ∧ ¬(c = '&')) :
    escapeTextAmpersands (envOpen e ++ (t1 ++ '&' :: t2)) = envOpen e ++ (t1 ++ '&' :: t2)
      ∧ escapeTextAmpersands (t1 ++ '&' :: t2) = t1 ++ '\\' :: '&' :: t2 :=
  ⟨amp_part1 e t1 t2 hstruct hne hbse hbre ht1 ht2, amp_part2 t1 t2 ht1 ht2⟩

theorem escapeTextAmpersands_structural_witness :
    isStructuralName (toL "tabular") = true
      ∧ escapeTextAmpersands (envOpen (toL "tabular") ++ (toL "a" ++ '&' :: toL "b"))
          = envOpen (toL "tabular") ++ (toL "a" ++ '&' :: toL "b")
      ∧ escapeTextAmpersands (toL "a" ++ '&' :: toL "b") = toL "a" ++ '\\' :: '&' :: toL "b" := by
  have h := escapeTextAmpersands_structural (toL "tabular") (toL "a") (toL "b")
    (by decide) (by decide) (by decide) (by decide) (by decide) (by decide)
  exact ⟨by decide, h.1, h.2⟩

/-! ## The LaTeX special-character escaper (`escapeLatex`, utils.ts 630-638) -/

/-- Replace `\` by `\textbackslash{}` (first chained replace). -/
def escBackslash (c : Char) : L :=
  if c = '\\' then toL "\\textbackslash" ++ ['{', '}'] else [c]

/-- Replace `{`/`}` by `\{`/`\}` (second chained replace). -/
def escBrace (c : Char) : L := if c = '{' || c = '}' then ['\\', c] else [c]

/-- Replace `%$#&_` by their backslashed forms (third chained replace). -/
def escSpecial (c : Char) : L :=
  if c = '%' || c = '$' || c = '#' || c = '&' || c = '_' then ['\\', c] else [c]

/-- Replace `~` by `\textasciitilde{}` (fourth chained replace). -/
def escTilde (c : Char) : L :=
  if c = '~' then toL "\\textasciitilde" ++ ['{', '}'] else [c]

/-- Replace `^` by `\textasciicircum{}` (fifth chained replace). -/
def escCaret (c : Char) : L :=
  if c = '^' then toL "\\textasciicircum" ++ ['{', '}'] else [c]

/-- `escapeLatex` (utils.ts 630-638): empty in, empty out; otherwise the five
chained character replaces, each applied to the previous pass's output. -/
def escapeLatex (s : L) : L :=
  if s = [] then []
  else ((((s.flatMap escBackslash).flatMap escBrace).flatMap escSpecial).flatMap
    escTilde).flatMap escCaret

/-! ## The Citation Compiler (`compileCitations`, latex generator 777-846) -/

/-- Generic embedding of a global regex replace: at each position try the
matcher (which returns the replacement text and the remainder after the
matched span); on a match emit the replacement and continue after the match,
otherwise copy one character.  Fuel bounds the number of scan steps. -/
def scanRepl (m : L → Option (L × L)) : Nat → L → L
  | _, [] => []
  | 0, s => s
  | fuel + 1, c :: rest =>
    match m (c :: rest) with
    | some (repl, r) => repl ++ scanRepl m fuel r
    | none => c :: scanRepl m fuel rest

/-- The literal text of the citation command `\cite{k}`. -/
def citeStr (k : L) : L := toL "\\cite" ++ '{' :: (k ++ ['}'])

/-- Matcher of the adjacency-merge regex
`\\cite\{([^}]+)\}\s*\\cite\{([^}]+)\}` with its replacement
`\cite{$1,$2}` (latex generator 813-815). -/
def mergeMatcher (s : L) : Option (L × L) :=
  (dropPfx (toL "\\cite") s).bind fun s1 =>
    (parseBraced s1).bind fun p1 =>
      (dropPfx (toL "\\cite") (p1.2.dropWhile isSpc)).bind fun s2 =>
        (parseBraced s2).map fun p2 =>
          (citeStr (p1.1 ++ ',' :: p2.1), p2.2)

/-- One full pass of the adjacency merge (one `String.replace` call). -/
def mergeOnce (s : L) : L := scanRepl mergeMatcher s.length s

/-- The bounded do-while merge loop (latex generator 809-818): at most ten
passes, stopping early at the first fixpoint. -/
def mergeGo : Nat → L → L
  | 0, s => s
  | fuel + 1, s =>
    if mergeOnce s = s then mergeOnce s else mergeGo fuel (mergeOnce s)

/-- The character class of the marker-content regex `[a-zA-Z0-9_,;\s]`. -/
def isMarkerChar (c : Char) : Bool :=
  c.isAlphanum || c = '_' || c = ',' || c = ';' || isSpc c

/-- The token-separator class of the split regex `[,\s;]+`. -/
def sepChar (c : Char) : Bool := c = ',' || c = ';' || isSpc c

/-- JS `String.split(/[,\s;]+/)`: split on runs of separators, keeping a
leading/trailing empty piece when the text starts/ends with a separator. -/
def splitSepsF : Nat → L → L → List L
  | 0, acc, _ => [acc]
  | _ + 1, acc, [] => [acc]
  | fuel + 1, acc, c :: rest =>
    if sepChar c then acc :: splitSepsF fuel [] (rest.dropWhile sepChar)
    else splitSepsF fuel (acc ++ [c]) rest

/-- Split on separator runs (JS `content.split(/[,\s;]+/)`). -/
def splitSeps (s : L) : List L := splitSepsF s.length [] s

/-- JS `String.split(',')`, keeping empty pieces. -/
def splitCommaGo (acc : L) : L → List L
  | [] => [acc]
  | c :: rest =>
    if c = ',' then acc :: splitCommaGo [] rest else splitCommaGo (acc ++ [c]) rest

/-- JS `String.trim()` (whitespace stripped from both ends). -/
def trimL (s : L) : L := ((s.dropWhile isSpc).reverse.dropWhile isSpc).reverse

/-- Token cleaning of the resolution callback (latex generator 792):
trim, then strip every character outside `[a-zA-Z0-9_]`. -/
def cleanTok (t : L) : L := (trimL t).filter (fun c => c.isAlphanum || c = '_')

/-- `valid.join(',')`. -/
def joinComma : List L → L
  | [] => []
  | [k] => k
  | k :: ks => k ++ ',' :: joinComma ks

/-- The citation-resolution callback (latex generator 786-805): split the
captured content into tokens, keep the tokens whose cleaned form is a valid
key; with at least one valid token emit one `\cite{...}` with the valid
tokens joined in order, otherwise escape the whole matched marker text. -/
def markerRepl (keys : List L) (content matchText : L) : L :=
  let tokens := splitSeps content
  let valid := tokens.filter (fun t => keys.contains (cleanTok t))
  if valid = [] then escapeLatex matchText else citeStr (joinComma valid)

/-- Test for the regex tail `\s*\)`: on success return the whitespace run
and the remainder after the closing parenthesis. -/
def lazyTest (s : L) : Option (L × L) :=
  if (s.dropWhile isSpc).head? = some ')' then
    some (s.takeWhile isSpc, (s.dropWhile isSpc).tail)
  else none

/-- The lazy group `[a-zA-Z0-9_,;\s]+?` followed by `\s*\)`: consume one
class character at a time, stopping at the first point where the tail
matches; returns (grabbed text, trailing whitespace, remainder). -/
def lazyGrab : Nat → L → Option (L × L × L)
  | 0, _ => none
  | _ + 1, [] => none
  | fuel + 1, c :: rest =>
    if isMarkerChar c then
      match lazyTest rest with
      | some (ws2, r) => some ([c], ws2, r)
      | none => (lazyGrab fuel rest).map fun p => (c :: p.1, p.2.1, p.2.2)
    else none

/-- Case-insensitive prefix strip (the `i` flag on the marker regexes). -/
def dropPfxCI : L → L → Option L
  | [], s => some s
  | _ :: _, [] => none
  | p :: ps, c :: cs => if c.toLower = p.toLower then dropPfxCI ps cs else none

/-- Matcher of the marker regex `\(\s*(ref_[a-zA-Z0-9_,;\s]+?)\s*\)` (flags
`gi`), paired with the resolution callback as its replacement. -/
def markerMatcher (keys : List L) (s : L) : Option (L × L) :=
  match s with
  | [] => none
  | c :: s1 =>
    if c = '(' then
      (dropPfxCI (toL "ref_") (s1.dropWhile isSpc)).bind fun s3 =>
        (lazyGrab s3.length s3).map fun p =>
          (markerRepl keys ((s1.dropWhile isSpc).take 4 ++ p.1)
             ('(' :: s1.takeWhile isSpc ++ ((s1.dropWhile isSpc).take 4 ++ p.1) ++ p.2.1 ++ [')']),
           p.2.2)
    else none

/-- Matcher of the hallucination-repair regex `\\cite\{([^}]+)\}` (latex
generator 821-835): a command whose keys (split on commas, trimmed) are all
valid is kept verbatim, any other is replaced by the glyph `[?]`. -/
def citeMatcher (keys : List L) (s : L) : Option (L × L) :=
  (dropPfx (toL "\\cite") s).bind fun s1 =>
    (parseBraced s1).map fun p =>
      if (splitCommaGo [] p.1).all (fun k => keys.contains (trimL k)) then
        (citeStr p.1, p.2)
      else (toL "[?]", p.2)

/-- Matcher of the safety-sweep regex `\(ref_(\d+)\)` (flags `gi`, latex
generator 840-843), replaced by the escaped matched text. -/
def sweepMatcher (s : L) : Option (L × L) :=
  match s with
  | [] => none
  | c :: s1 =>
    if c = '(' then
      (dropPfxCI (toL "ref_") s1).bind fun s2 =>
        if s2.takeWhile Char.isDigit = [] then none
        else
          if (s2.dropWhile Char.isDigit).head? = some ')' then
            some (escapeLatex ('(' :: s1.take 4 ++ s2.takeWhile Char.isDigit ++ [')']),
              (s2.dropWhile Char.isDigit).tail)
          else none
    else none

/-- The Citation Compiler `compileCitations` (latex generator 777-846):
marker resolution, bounded adjacency merge, hallucination repair, safety
sweep. -/
def compileCitations (keys : List L) (text : L) : L :=
  let s2 := scanRepl (markerMatcher keys) text.length text
  let s3 := mergeGo 10 s2
  let s4 := scanRepl (citeMatcher keys) s3.length s3
  scanRepl sweepMatcher s4.length s4

theorem scanRepl_nil (m : L → Option (L × L)) (f : Nat) : scanRepl m f [] = [] := by
  cases f <;> rfl

theorem scanRepl_id (m : L → Option (L × L)) :
    ∀ (fuel : Nat) (s : L), (∀ t : L, t ≠ [] → t.IsSuffix s → m t = none) →
      scanRepl m fuel s = s := by
  intro fuel
  induction fuel with
  | zero => intro s _; cases s <;> rfl
  | succ fuel ih =>
    intro s hm
    cases s with
    | nil => rfl
    | cons c rest =>
      rw [scanRepl, hm (c :: rest) (by simp) (List.suffix_refl _)]
      rw [ih rest (fun t ht hsuf => hm t ht (hsuf.trans (List.suffix_cons c rest)))]

theorem scanRepl_match_all (m : L → Option (L × L)) (f : Nat) (c : Char) (rest repl : L)
    (h : m (c :: rest) = some (repl, [])) :
    scanRepl m (f + 1) (c :: rest) = repl := by
  rw [scanRepl, h]
  show repl ++ scanRepl m f [] = repl
  rw [scanRepl_nil, List.append_nil]

theorem suffix_head_mem {t s : L} {c : Char} {r : L}
    (hsuf : t.IsSuffix s) (ht : t = c :: r) : c ∈ s :=
  hsuf.subset (ht ▸ List.mem_cons_self c r)

theorem isSuffix_eq_of_unique {x : Char} {s t : L} (hx : x ∉ s.tail) (hsuf : t.IsSuffix s)
    {r : L} (ht : t = x :: r) : t = s := by
  obtain ⟨u, hu⟩ := hsuf
  cases u with
  | nil => simpa using hu
  | cons a u' =>
    exfalso
    apply hx
    have : s.tail = u' ++ t := by rw [← hu]; rfl
    rw [this, ht]
    simp

theorem mergeMatcher_none_head {t : L} (h : ∀ r, t ≠ '\\' :: r) : mergeMatcher t = none := by
  unfold mergeMatcher
  cases t with
  | nil => rfl
  | cons c rest =>
    have hc : ¬(c = '\\') := fun hcc => h rest (by rw [hcc])
    rw [dropPfx_head_ne (by decide : toL "\\cite" = '\\' :: toL "cite") hc]
    rfl

theorem citeStr_cons (k : L) : citeStr k = '\\' :: (toL "cite" ++ '{' :: (k ++ ['}'])) := by
  simp [citeStr, toL]

theorem mergeMatcher_single (k : L) (hne : k ≠ []) (hfree : '}' ∉ k) :
    mergeMatcher (citeStr k) = none := by
  unfold mergeMatcher
  have harr : citeStr k = toL "\\cite" ++ ('{' :: (k ++ '}' :: [])) := by simp [citeStr]
  rw [harr, dropPfx_self]
  simp only [Option.bind]
  rw [parseBraced_self k [] hne (fun c hc hc' => hfree (hc' ▸ hc))]
  simp [dropPfx]

theorem mergeMatcher_pair (k1 k2 ws : L) (h1 : k1 ≠ []) (h2 : k2 ≠ [])
    (hf1 : '}' ∉ k1) (hf2 : '}' ∉ k2) (hws : ∀ c ∈ ws, isSpc c = true) :
    mergeMatcher (citeStr k1 ++ ws ++ citeStr k2)
      = some (citeStr (k1 ++ ',' :: k2), []) := by
  unfold mergeMatcher
  have harr : citeStr k1 ++ ws ++ citeStr k2
      = toL "\\cite" ++ ('{' :: (k1 ++ '}' :: (ws ++ citeStr k2))) := by
    simp [citeStr]
  rw [harr, dropPfx_self]
  simp only [Option.bind]
  rw [parseBraced_self k1 (ws ++ citeStr k2) h1 (fun c hc hc' => hf1 (hc' ▸ hc))]
  simp only
  have hdw : (ws ++ citeStr k2).dropWhile isSpc = citeStr k2 :=
    (takeWhile_append_of isSpc ws (citeStr k2) hws (fun x hx => by
      rw [citeStr_cons] at hx
      simp at hx
      subst hx
      decide)).2
  rw [hdw]
  have harr2 : citeStr k2 = toL "\\cite" ++ ('{' :: (k2 ++ '}' :: [])) := by simp [citeStr]
  rw [harr2, dropPfx_self]
  simp only [Option.bind]
  rw [parseBraced_self k2 [] h2 (fun c hc hc' => hf2 (hc' ▸ hc))]
  simp [citeStr]

theorem bs_not_in_citeStr_tail (k : L) (hk : ∀ c ∈ k, c.isAlphanum = true ∨ c = '_' ∨ c = ',') :
    '\\' ∉ (citeStr k).tail := by
  rw [citeStr_cons]
  simp only [List.tail_cons]
  intro h
  rcases List.mem_append.mp h with h | h
  · exact absurd h (by decide)
  · rcases List.mem_cons.mp h with h | h
    · exact absurd h (by decide)
    · rcases List.mem_append.mp h with h | h
      · rcases hk _ h with h' | h' | h' <;> simp_all
      · rcases List.mem_cons.mp h with h | h
        · exact absurd h (by decide)
        · simp at h

theorem mergeOnce_citeStr (k : L) (hne : k ≠ [])
    (hk : ∀ c ∈ k, c.isAlphanum = true ∨ c = '_' ∨ c = ',') :
    mergeOnce (citeStr k) = citeStr k := by
  apply scanRepl_id
  intro t htne hsuf
  have hfree : '}' ∉ k := by
    intro h
    rcases hk _ h with h' | h' | h' <;> simp_all
  cases ht : t with
  | nil => exact absurd ht htne
  | cons c r =>
    by_cases hc : c = '\\'
    · subst hc
      have heq : t = citeStr k := isSuffix_eq_of_unique (bs_not_in_citeStr_tail k hk) hsuf ht
      rw [← ht, heq]
      exact mergeMatcher_single k hne hfree
    · exact mergeMatcher_none_head (fun r' hr' => hc (by injection hr'))

/-- C5 (amended): the adjacency-merge step rewrites two immediately adjacent
citation commands into one whose key list is the concatenation of the two
lists in order (duplicates are retained, not unioned away), and the merge
loop is bounded (at most ten passes, by construction of `mergeGo`). -/
theorem citation_merge_concat (k1 k2 ws : L) (h1 : k1 ≠ []) (h2 : k2 ≠ [])
    (hk1 : ∀ c ∈ k1, c.isAlphanum = true ∨ c = '_')
    (hk2 : ∀ c ∈ k2, c.isAlphanum = true ∨ c = '_')
    (hws : ∀ c ∈ ws, isSpc c = true) :
    mergeGo 10 (citeStr k1 ++ ws ++ citeStr k2) = citeStr (k1 ++ ',' :: k2) := by
  have hf1 : '}' ∉ k1 := fun h => by rcases hk1 _ h with h' | h' <;> simp_all
  have hf2 : '}' ∉ k2 := fun h => by rcases hk2 _ h with h' | h' <;> simp_all
  have hm := mergeMatcher_pair k1 k2 ws h1 h2 hf1 hf2 hws
  have hcons : citeStr k1 ++ ws ++ citeStr k2
      = '\\' :: (toL "cite" ++ '{' :: (k1 ++ ['}']) ++ (ws ++ citeStr k2)) := by
    simp [citeStr, toL]
  have honce : mergeOnce (citeStr k1 ++ ws ++ citeStr k2) = citeStr (k1 ++ ',' :: k2) := by
    unfold mergeOnce
    conv_lhs => rw [hcons]
    rw [List.length_cons]
    apply scanRepl_match_all
    rw [← hcons]
    exact hm
  have hneq : mergeOnce (citeStr k1 ++ ws ++ citeStr k2) ≠ citeStr k1 ++ ws ++ citeStr k2 := by
    rw [honce]
    intro h
    have := congrArg List.length h
    simp [citeStr] at this
    omega
  rw [mergeGo, if_neg hneq, honce]
  have hkj : ∀ c ∈ k1 ++ ',' :: k2, c.isAlphanum = true ∨ c = '_' ∨ c = ',' := by
    intro c hc
    rcases List.mem_append.mp hc with h | h
    · rcases hk1 _ h with h' | h'
      · exact Or.inl h'
      · exact Or.inr (Or.inl h')
    · rcases List.mem_cons.mp h with h | h
      · exact Or.inr (Or.inr h)
      · rcases hk2 _ h with h' | h'
        · exact Or.inl h'
        · exact Or.inr (Or.inl h')
  have hfix := mergeOnce_citeStr (k1 ++ ',' :: k2) (by simp) hkj
  rw [mergeGo, if_pos hfix, hfix]

/-- C5 counterexample: merging the adjacent commands `\cite{a} \cite{a}`
yields `\cite{a,a}` — the key `a`, present in both, appears twice in the
merged command, not once; the key lists are concatenated, not unioned. -/
theorem citation_merge_cex :
    mergeGo 10 (citeStr (toL "a") ++ ' ' :: citeStr (toL "a")) = citeStr (toL "a,a")
      ∧ citeStr (toL "a,a") ≠ citeStr (toL "a") := by
  decide

theorem citation_merge_witness :
    mergeGo 10 (citeStr (toL "a") ++ ' ' :: citeStr (toL "b")) = citeStr (toL "a,b") := by
  have h := citation_merge_concat (toL "a") (toL "b") [' ']
    (by decide) (by decide) (by decide) (by decide) (by decide)
  simpa using h

theorem dropPfxCI_self (p s : L) : dropPfxCI p (p ++ s) = some s := by
  induction p with
  | nil => rfl
  | cons c cs ih => simp [dropPfxCI, ih]

theorem getLast?_isSpc_of_all {l : L} {x : Char} (hall : ∀ c ∈ l, isSpc c = true)
    (hx : l.getLast? = some x) : isSpc x = true := by
  cases l with
  | nil => simp at hx
  | cons a l' =>
    have hne : (a :: l') ≠ ([] : L) := by simp
    rw [List.getLast?_eq_getLast _ hne] at hx
    have hx' : x = (a :: l').getLast hne := (Option.some.inj hx).symm
    rw [hx']
    exact hall _ (List.getLast_mem hne)

theorem lazyGrab_full (b : L) (hcls : ∀ c ∈ b, isMarkerChar c = true)
    (hlast : ∀ c, b.getLast? = some c → isSpc c = false) :
    ∀ fuel, b ≠ [] → b.length ≤ fuel → lazyGrab fuel (b ++ [')']) = some (b, [], []) := by
  induction b with
  | nil => intro fuel hb _; exact absurd rfl hb
  | cons c b' ih =>
    intro fuel _ hfuel
    obtain ⟨g, rfl⟩ : ∃ g, fuel = g + 1 := ⟨fuel - 1, by simp at hfuel; omega⟩
    rw [List.cons_append, lazyGrab, if_pos (hcls c (List.mem_cons_self c b'))]
    cases hb' : b' with
    | nil =>
      subst hb'
      rw [show lazyTest (([] : L) ++ [')']) = some ([], []) from by decide]
    | cons d b'' =>
      subst hb'
      have hcls' : ∀ x ∈ d :: b'', isMarkerChar x = true :=
        fun x hx => hcls x (List.mem_cons_of_mem c hx)
      have hlast' : ∀ x, (d :: b'').getLast? = some x → isSpc x = false := by
        intro x hx
        apply hlast
        rw [List.getLast?_cons_cons]
        exact hx
      have hz : (d :: b'').dropWhile isSpc ≠ [] := by
        intro hemp
        have hall : ∀ x ∈ d :: b'', isSpc x = true := List.dropWhile_eq_nil_iff.mp hemp
        have hne' : (d :: b'') ≠ ([] : L) := by simp
        have hx : (d :: b'').getLast? = some ((d :: b'').getLast hne') :=
          List.getLast?_eq_getLast _ hne'
        have := getLast?_isSpc_of_all hall hx
        rw [hlast' _ hx] at this
        exact absurd this (by decide)
      have hlt : lazyTest ((d :: b'') ++ [')']) = none := by
        unfold lazyTest
        rw [List.dropWhile_append]
        have hcond : ¬ (List.dropWhile isSpc (d :: b'')).isEmpty = true := by
          simpa [List.isEmpty_iff] using hz
        rw [if_neg hcond]
        cases hzz : (d :: b'').dropWhile isSpc with
        | nil => exact absurd hzz hz
        | cons z zs =>
          have hzmem : z ∈ d :: b'' := by
            have hsub := List.dropWhile_sublist (p := isSpc) (l := d :: b'')
            rw [hzz] at hsub
            exact hsub.subset (List.mem_cons_self z zs)
          have hznp : ¬ (z = ')') := by
            intro hzeq
            have := hcls' z hzmem
            rw [hzeq] at this
            exact absurd this (by decide)
          rw [if_neg (by simpa using hznp)]
      rw [hlt]
      have hlen' : (d :: b'').length ≤ g := by
        simp at hfuel ⊢
        omega
      rw [ih hcls' hlast' g (by simp) hlen']
      rfl

theorem flatMap_id_of {f : Char → L} {s : L} (h : ∀ c ∈ s, f c = [c]) :
    s.flatMap f = s := by
  induction s with
  | nil => rfl
  | cons c cs ih =>
    rw [List.flatMap_cons, h c (List.mem_cons_self c cs),
      ih (fun d hd => h d (List.mem_cons_of_mem c hd))]
    rfl

theorem flatMap_congr_of {f g : Char → L} {s : L} (h : ∀ c ∈ s, f c = g c) :
    s.flatMap f = s.flatMap g := by
  induction s with
  | nil => rfl
  | cons c cs ih =>
    rw [List.flatMap_cons, List.flatMap_cons, h c (List.mem_cons_self c cs),
      ih (fun d hd => h d (List.mem_cons_of_mem c hd))]

/-- The net effect of `escapeLatex` on marker text: only `_` is rewritten. -/
def escUnder (c : Char) : L := if c = '_' then ['\\', '_'] else [c]

theorem escUnder_chars {s : L} {d : Char} (hd : d ∈ s.flatMap escUnder) :
    d ∈ s ∨ d = '\\' ∨ d = '_' := by
  obtain ⟨c, hc, hdc⟩ := List.mem_flatMap.mp hd
  by_cases h : c = '_'
  · subst h
    simp [escUnder] at hdc
    rcases hdc with h' | h'
    · exact Or.inr (Or.inl h')
    · exact Or.inr (Or.inr h')
  · simp [escUnder, h] at hdc
    subst hdc
    exact Or.inl hc

theorem escapeLatex_flat (s : L) (hne : s ≠ [])
    (h : ∀ c ∈ s, ¬(c = '\\') ∧ ¬(c = '{') ∧ ¬(c = '}') ∧ ¬(c = '%') ∧ ¬(c = '$')
      ∧ ¬(c = '#') ∧ ¬(c = '&') ∧ ¬(c = '~') ∧ ¬(c = '^')) :
    escapeLatex s = s.flatMap escUnder := by
  unfold escapeLatex
  rw [if_neg hne]
  have e1 : s.flatMap escBackslash = s :=
    flatMap_id_of (fun c hc => by simp [escBackslash, (h c hc).1])
  rw [e1]
  have e2 : s.flatMap escBrace = s :=
    flatMap_id_of (fun c hc => by simp [escBrace, (h c hc).2.1, (h c hc).2.2.1])
  rw [e2]
  have e3 : s.flatMap escSpecial = s.flatMap escUnder :=
    flatMap_congr_of (fun c hc => by
      obtain ⟨_, _, _, h4, h5, h6, h7, _, _⟩ := h c hc
      by_cases hu : c = '_'
      · subst hu; simp [escSpecial, escUnder]
      · simp [escSpecial, escUnder, h4, h5, h6, h7, hu])
  rw [e3]
  have e4 : (s.flatMap escUnder).flatMap escTilde = s.flatMap escUnder :=
    flatMap_id_of (fun c hc => by
      rcases escUnder_chars hc with h' | h' | h'
      · simp [escTilde, (h c h').2.2.2.2.2.2.2.1]
      · subst h'; simp [escTilde]
      · subst h'; simp [escTilde])
  rw [e4]
  have e5 : (s.flatMap escUnder).flatMap escCaret = s.flatMap escUnder :=
    flatMap_id_of (fun c hc => by
      rcases escUnder_chars hc with h' | h' | h'
      · simp [escCaret, (h c h').2.2.2.2.2.2.2.2]
      · subst h'; simp [escCaret]
      · subst h'; simp [escCaret])
  rw [e5]

/-- Every backslash in the text is immediately followed by an underscore. -/
def NoBadBS : L → Prop
  | [] => True
  | c :: rest => (c = '\\' → rest.head? = some '_') ∧ NoBadBS rest

theorem noBadBS_suffix {s : L} (hs : NoBadBS s) :
    ∀ {t : L} {r : L}, t.IsSuffix s → t = '\\' :: r → r.head? = some '_' := by
  induction s with
  | nil =>
    intro t r hsuf ht
    rw [List.suffix_nil.mp hsuf] at ht
    exact absurd ht (by simp)
  | cons c cs ih =>
    intro t r hsuf ht
    rcases List.suffix_cons_iff.mp hsuf with h | h
    · rw [h] at ht
      injection ht with h1 h2
      subst h2
      exact hs.1 h1
    · exact ih hs.2 h ht

theorem noBadBS_flat (u : L) (hu : ∀ c ∈ u, ¬(c = '\\')) :
    ∀ (v : L), NoBadBS v → NoBadBS (u.flatMap escUnder ++ v) := by
  induction u with
  | nil => intro v hv; simpa
  | cons c u' ih =>
    intro v hv
    have ih' := ih (fun d hd => hu d (List.mem_cons_of_mem c hd)) v hv
    rw [List.flatMap_cons, List.append_assoc]
    by_cases h : c = '_'
    · subst h
      show NoBadBS ('\\' :: '_' :: (u'.flatMap escUnder ++ v))
      exact ⟨fun _ => rfl, fun h' => absurd h' (by decide), ih'⟩
    · have he : escUnder c = [c] := by simp [escUnder, h]
      rw [he]
      show NoBadBS (c :: (u'.flatMap escUnder ++ v))
      exact ⟨fun h' => absurd h' (hu c (List.mem_cons_self c u')), ih'⟩

theorem dropPfx_cite_none {t : L}
    (h1 : ∀ r, t = '\\' :: r → r.head? ≠ some 'c') : dropPfx (toL "\\cite") t = none := by
  cases t with
  | nil =>
    rw [show (toL "\\cite" : L) = '\\' :: toL "cite" from by decide]
    rfl
  | cons c r =>
    by_cases hc : c = '\\'
    · subst hc
      have hr := h1 r rfl
      rw [show (toL "\\cite" : L) = '\\' :: toL "cite" from by decide, dropPfx, if_pos rfl]
      cases r with
      | nil =>
        rw [show (toL "cite" : L) = 'c' :: toL "ite" from by decide]
        rfl
      | cons x xs =>
        have hx : ¬ (x = 'c') := by simpa using hr
        exact dropPfx_head_ne (show (toL "cite" : L) = 'c' :: toL "ite" from by decide) hx
    · exact dropPfx_head_ne (show (toL "\\cite" : L) = '\\' :: toL "cite" from by decide) hc

theorem mergeMatcher_none_of {t : L}
    (h1 : ∀ r, t = '\\' :: r → r.head? ≠ some 'c') : mergeMatcher t = none := by
  unfold mergeMatcher
  rw [dropPfx_cite_none h1]
  rfl

theorem citeMatcher_none_of (keys : List L) {t : L}
    (h1 : ∀ r, t = '\\' :: r → r.head? ≠ some 'c') : citeMatcher keys t = none := by
  unfold citeMatcher
  rw [dropPfx_cite_none h1]
  rfl

theorem sweepMatcher_none_head {t : L} (h : ∀ r, t ≠ '(' :: r) : sweepMatcher t = none := by
  cases t with
  | nil => rfl
  | cons c r =>
    have hc : ¬ (c = '(') := fun hcc => h r (by rw [hcc])
    rw [sweepMatcher, if_neg hc]

theorem splitCommaGo_nocomma (u : L) (hu : ',' ∉ u) :
    ∀ acc, splitCommaGo acc u = [acc ++ u] := by
  induction u with
  | nil => intro acc; simp [splitCommaGo]
  | cons c u' ih =>
    intro acc
    have hc : ¬ (c = ',') := fun hcc => hu (hcc ▸ List.mem_cons_self c u')
    rw [splitCommaGo, if_neg hc, ih (fun hm => hu (List.mem_cons_of_mem c hm))]
    simp

theorem splitCommaGo_append (v rest : L) (hv : ',' ∉ v) :
    ∀ acc, splitCommaGo acc (v ++ ',' :: rest) = (acc ++ v) :: splitCommaGo [] rest := by
  induction v with
  | nil => intro acc; rw [List.nil_append, splitCommaGo, if_pos rfl]; simp
  | cons c v' ih =>
    intro acc
    have hc : ¬ (c = ',') := fun hcc => hv (hcc ▸ List.mem_cons_self c v')
    rw [List.cons_append, splitCommaGo, if_neg hc,
      ih (fun hm => hv (List.mem_cons_of_mem c hm))]
    simp

theorem splitComma_joinComma (vs : List L) (hvs : ∀ v ∈ vs, v ≠ [] ∧ ',' ∉ v) :
    vs ≠ [] → splitCommaGo [] (joinComma vs) = vs := by
  induction vs with
  | nil => intro h; exact absurd rfl h
  | cons v vs' ih =>
    intro _
    cases vs' with
    | nil =>
      rw [joinComma, splitCommaGo_nocomma v (hvs v (List.mem_cons_self v [])).2]
      simp
    | cons w ws =>
      rw [show joinComma (v :: w :: ws) = v ++ ',' :: joinComma (w :: ws) from rfl]
      rw [splitCommaGo_append v _ (hvs v (List.mem_cons_self v _)).2]
      rw [ih (fun x hx => hvs x (List.mem_cons_of_mem v hx)) (by simp)]
      simp

theorem alnum_or_underscore_not_spc {c : Char} (h : c.isAlphanum = true ∨ c = '_') :
    isSpc c = false := by
  cases hss : isSpc c
  · rfl
  · exfalso
    have hs' : c = ' ' ∨ c = '\t' ∨ c = '\n' ∨ c = '\r' ∨ c = '\x0b' ∨ c = '\x0c' := by
      have hcopy := hss
      unfold isSpc at hcopy
      simp only [Bool.or_eq_true, decide_eq_true_eq] at hcopy
      tauto
    rcases hs' with rfl | rfl | rfl | rfl | rfl | rfl <;>
      rcases h with h2 | h2 <;> revert h2 <;> decide

theorem trimL_id_of (t : L) (h : ∀ c ∈ t, isSpc c = false) : trimL t = t := by
  unfold trimL
  have h1 : t.dropWhile isSpc = t := by
    cases t with
    | nil => rfl
    | cons c cs =>
      rw [List.dropWhile_cons, if_neg (by simp [h c (List.mem_cons_self c cs)])]
  rw [h1]
  have h2 : t.reverse.dropWhile isSpc = t.reverse := by
    cases hrev : t.reverse with
    | nil => rfl
    | cons c cs =>
      have hc : c ∈ t := by
        rw [← List.mem_reverse, hrev]
        exact List.mem_cons_self c cs
      rw [List.dropWhile_cons, if_neg (by simp [h c hc])]
  rw [h2, List.reverse_reverse]

theorem cleanTok_id_of (t : L) (h : ∀ c ∈ t, c.isAlphanum = true ∨ c = '_') :
    cleanTok t = t := by
  unfold cleanTok
  rw [trimL_id_of t (fun c hc => alnum_or_underscore_not_spc (h c hc))]
  rw [List.filter_eq_self.mpr (fun c hc => by
    rcases h c hc with h' | h'
    · simp [h']
    · simp [h'])]

theorem splitSepsF_mem_chars :
    ∀ (fuel : Nat) (acc s t : L), t ∈ splitSepsF fuel acc s →
      ∀ c ∈ t, c ∈ acc ∨ (c ∈ s ∧ sepChar c = false) := by
  intro fuel
  induction fuel with
  | zero =>
    intro acc s t ht c hc
    simp [splitSepsF] at ht
    subst ht
    exact Or.inl hc
  | succ fuel ih =>
    intro acc s t ht c hc
    cases s with
    | nil =>
      simp [splitSepsF] at ht
      subst ht
      exact Or.inl hc
    | cons d rest =>
      rw [splitSepsF] at ht
      by_cases hd : sepChar d
      · rw [if_pos hd] at ht
        rcases List.mem_cons.mp ht with h | h
        · subst h; exact Or.inl hc
        · rcases ih [] (rest.dropWhile sepChar) t h c hc with h' | h'
          · simp at h'
          · exact Or.inr ⟨List.mem_cons_of_mem d
              ((List.dropWhile_sublist (p := sepChar) (l := rest)).subset h'.1), h'.2⟩
      · rw [if_neg hd] at ht
        rcases ih (acc ++ [d]) rest t ht c hc with h' | h'
        · rcases List.mem_append.mp h' with h'' | h''
          · exact Or.inl h''
          · simp at h''
            subst h''
            exact Or.inr ⟨List.mem_cons_self c rest, by simpa using hd⟩
        · exact Or.inr ⟨List.mem_cons_of_mem d h'.1, h'.2⟩

theorem joinComma_chars {vs : List L} {c : Char} (hc : c ∈ joinComma vs) :
    (∃ v ∈ vs, c ∈ v) ∨ c = ',' := by
  induction vs with
  | nil => simp [joinComma] at hc
  | cons v vs' ih =>
    cases vs' with
    | nil =>
      rw [joinComma] at hc
      exact Or.inl ⟨v, List.mem_cons_self v [], hc⟩
    | cons w ws =>
      rw [show joinComma (v :: w :: ws) = v ++ ',' :: joinComma (w :: ws) from rfl] at hc
      rcases List.mem_append.mp hc with h | h
      · exact Or.inl ⟨v, List.mem_cons_self v _, h⟩
      · rcases List.mem_cons.mp h with h | h
        · exact Or.inr h
        · rcases ih h with ⟨x, hx, hcx⟩ | h'
          · exact Or.inl ⟨x, List.mem_cons_of_mem v hx, hcx⟩
          · exact Or.inr h'

theorem markerChar_cases {c : Char} (h : isMarkerChar c = true) :
    c.isAlphanum = true ∨ c = '_' ∨ c = ',' ∨ c = ';' ∨
      c = ' ' ∨ c = '\t' ∨ c = '\n' ∨ c = '\r' ∨ c = '\x0b' ∨ c = '\x0c' := by
  unfold isMarkerChar isSpc at h
  simp only [Bool.or_eq_true, decide_eq_true_eq] at h
  tauto

theorem markerChar_not_special {c : Char} (h : isMarkerChar c = true) :
    ¬(c = '\\') ∧ ¬(c = '{') ∧ ¬(c = '}') ∧ ¬(c = '%') ∧ ¬(c = '$') ∧ ¬(c = '#')
      ∧ ¬(c = '&') ∧ ¬(c = '~') ∧ ¬(c = '^') ∧ ¬(c = '(') ∧ ¬(c = ')') := by
  rcases markerChar_cases h with h' | h' | h' | h' | h' | h' | h' | h' | h' | h'
  · refine ⟨?_, ?_, ?_, ?_, ?_, ?_, ?_, ?_, ?_, ?_, ?_⟩ <;>
      (rintro rfl; exact absurd h' (by decide))
  all_goals (subst h'; decide)

theorem markerChar_not_sep {c : Char} (h1 : isMarkerChar c = true) (h2 : sepChar c = false) :
    c.isAlphanum = true ∨ c = '_' := by
  rcases markerChar_cases h1 with h | h | h | h | h | h | h | h | h | h
  · exact Or.inl h
  · exact Or.inr h
  all_goals (exfalso; subst h; exact absurd h2 (by decide))

theorem contains_mem {keys : List L} {x : L} (h : keys.contains x = true) : x ∈ keys := by
  simpa using h

theorem mergeOnce_of_noBadBS {s : L} (hs : NoBadBS s) : mergeOnce s = s := by
  apply scanRepl_id
  intro t _ hsuf
  apply mergeMatcher_none_of
  intro r hr
  rw [noBadBS_suffix hs hsuf hr]
  simp

theorem citeScan_of_noBadBS (keys : List L) {s : L} (hs : NoBadBS s) (f : Nat) :
    scanRepl (citeMatcher keys) f s = s := by
  apply scanRepl_id
  intro t _ hsuf
  apply citeMatcher_none_of
  intro r hr
  rw [noBadBS_suffix hs hsuf hr]
  simp

theorem dropPfxCI_ref_bs (rest : L) :
    dropPfxCI (toL "ref_") ('r' :: 'e' :: 'f' :: '\\' :: rest) = none := by
  rw [show (toL "ref_" : L) = 'r' :: 'e' :: 'f' :: '_' :: [] from by decide]
  rw [dropPfxCI, if_pos (by decide)]
  rw [dropPfxCI, if_pos (by decide)]
  rw [dropPfxCI, if_pos (by decide)]
  rw [dropPfxCI, if_neg (by decide)]

theorem sweepScan_marker (X : L) (hX : '(' ∉ X)
    (hdp : dropPfxCI (toL "ref_") X = none) (f : Nat) :
    scanRepl sweepMatcher f ('(' :: X) = '(' :: X := by
  apply scanRepl_id
  intro t htne hsuf
  cases ht : t with
  | nil => exact absurd ht htne
  | cons c r =>
    by_cases hc : c = '('
    · subst hc
      have heq : t = '(' :: X := isSuffix_eq_of_unique (by simpa using hX) hsuf ht
      rw [← ht, heq, sweepMatcher, if_pos rfl, hdp]
      rfl
    · exact sweepMatcher_none_head (fun r' hr' => hc (by injection hr'))

theorem paren_not_in_citeStr (k : L)
    (hk : ∀ c ∈ k, c.isAlphanum = true ∨ c = '_' ∨ c = ',') : '(' ∉ citeStr k := by
  rw [citeStr_cons]
  intro h
  rcases List.mem_cons.mp h with h | h
  · exact absurd h (by decide)
  rcases List.mem_append.mp h with h | h
  · exact absurd h (by decide)
  rcases List.mem_cons.mp h with h | h
  · exact absurd h (by decide)
  rcases List.mem_append.mp h with h | h
  · rcases hk _ h with h' | h' | h' <;> simp_all
  rcases List.mem_cons.mp h with h | h
  · exact absurd h (by decide)
  · simp at h

theorem sweepScan_citeStr (k : L)
    (hk : ∀ c ∈ k, c.isAlphanum = true ∨ c = '_' ∨ c = ',') (f : Nat) :
    scanRepl sweepMatcher f (citeStr k) = citeStr k := by
  apply scanRepl_id
  intro t htne hsuf
  cases ht : t with
  | nil => exact absurd ht htne
  | cons c r =>
    apply sweepMatcher_none_head
    intro r' hr'
    have hcp : c = '(' := by injection hr'
    have hmem := suffix_head_mem hsuf ht
    rw [hcp] at hmem
    exact paren_not_in_citeStr k hk hmem

theorem citeMatcher_citeStr (keys : List L) (k : L) (hne : k ≠ []) (hfree : '}' ∉ k)
    (hall : (splitCommaGo [] k).all (fun x => keys.contains (trimL x)) = true) :
    citeMatcher keys (citeStr k) = some (citeStr k, []) := by
  unfold citeMatcher
  have harr : citeStr k = toL "\\cite" ++ ('{' :: (k ++ '}' :: [])) := by simp [citeStr]
  rw [harr, dropPfx_self]
  simp only [Option.bind]
  rw [parseBraced_self k [] hne (fun c hc hc' => hfree (hc' ▸ hc))]
  simp only [Option.map_some']
  rw [if_pos hall, harr]

theorem citeScan_citeStr (keys : List L) (k : L) (hne : k ≠ []) (hfree : '}' ∉ k)
    (hall : (splitCommaGo [] k).all (fun x => keys.contains (trimL x)) = true) :
    scanRepl (citeMatcher keys) (citeStr k).length (citeStr k) = citeStr k := by
  conv_lhs => rw [citeStr_cons]
  rw [List.length_cons]
  apply scanRepl_match_all
  rw [← citeStr_cons]
  exact citeMatcher_citeStr keys k hne hfree hall

theorem markerMatcher_full (keys : List L) (b : L) (hb : b ≠ [])
    (hcls : ∀ c ∈ b, isMarkerChar c = true)
    (hlast : ∀ c, b.getLast? = some c → isSpc c = false) :
    markerMatcher keys ('(' :: ((toL "ref_" ++ b) ++ [')']))
      = some (markerRepl keys (toL "ref_" ++ b)
          ('(' :: ((toL "ref_" ++ b) ++ [')'])), []) := by
  rw [markerMatcher, if_pos rfl]
  have hhead : ((toL "ref_" ++ b) ++ [')'] : L) = 'r' :: ((toL "ef_" ++ b) ++ [')']) := by
    rw [show (toL "ref_" : L) = 'r' :: toL "ef_" from by decide]
    rfl
  have hdw : (((toL "ref_" ++ b) ++ [')']) : L).dropWhile isSpc
      = (toL "ref_" ++ b) ++ [')'] := by
    conv_lhs => rw [hhead]
    rw [List.dropWhile_cons, if_neg (by decide)]
    exact hhead.symm
  have htw : (((toL "ref_" ++ b) ++ [')']) : L).takeWhile isSpc = [] := by
    conv_lhs => rw [hhead]
    rw [List.takeWhile_cons, if_neg (by decide)]
  rw [hdw, htw]
  have hpfx : dropPfxCI (toL "ref_") ((toL "ref_" ++ b) ++ [')']) = some (b ++ [')']) := by
    rw [List.append_assoc]
    exact dropPfxCI_self _ _
  rw [hpfx]
  simp only [Option.bind]
  have hlen : ((b ++ [')']) : L).length = b.length + 1 := by simp
  rw [hlen, lazyGrab_full b hcls hlast (b.length + 1) hb (by omega)]
  simp only [Option.map_some']
  have htake : (((toL "ref_" ++ b) ++ [')']) : L).take 4 = toL "ref_" := by
    rw [show (toL "ref_" : L) = 'r' :: 'e' :: 'f' :: '_' :: [] from by decide]
    rfl
  rw [htake]
  simp

/-- C7: on a document that is exactly one citation marker `(ref_<tail>)` whose
tail consists of marker-class characters and does not end in whitespace (and
with nonempty valid keys), `compileCitations` replaces the marker by a single
`\cite{...}` command holding exactly the valid tokens, in their original
order, when at least one token is valid, and by the escaped form of the whole
marker text when no token is valid. -/
theorem compileCitations_marker (keys : List L) (b : L) (hb : b ≠ [])
    (hcls : ∀ c ∈ b, isMarkerChar c = true)
    (hlast : ∀ c, b.getLast? = some c → isSpc c = false)
    (hkeys : ∀ k ∈ keys, k ≠ []) :
    compileCitations keys ('(' :: ((toL "ref_" ++ b) ++ [')'])) =
      if (splitSeps (toL "ref_" ++ b)).filter
          (fun t => keys.contains (cleanTok t)) = [] then
        escapeLatex ('(' :: ((toL "ref_" ++ b) ++ [')']))
      else
        citeStr (joinComma ((splitSeps (toL "ref_" ++ b)).filter
          (fun t => keys.contains (cleanTok t)))) := by
  have hcontent : ∀ c ∈ toL "ref_" ++ b, isMarkerChar c = true := by
    intro c hc
    rcases List.mem_append.mp hc with h | h
    · exact (by decide : ∀ x ∈ (toL "ref_" : L), isMarkerChar x = true) c h
    · exact hcls c h
  have h1 : scanRepl (markerMatcher keys) ('(' :: ((toL "ref_" ++ b) ++ [')'])).length
      ('(' :: ((toL "ref_" ++ b) ++ [')']))
      = markerRepl keys (toL "ref_" ++ b) ('(' :: ((toL "ref_" ++ b) ++ [')'])) := by
    rw [List.length_cons]
    exact scanRepl_match_all _ _ _ _ _ (markerMatcher_full keys b hb hcls hlast)
  simp only [compileCitations]
  rw [h1]
  simp only [markerRepl]
  by_cases hV : (splitSeps (toL "ref_" ++ b)).filter (fun t => keys.contains (cleanTok t)) = []
  · rw [if_pos hV]
    have hmtne : ('(' :: ((toL "ref_" ++ b) ++ [')']) : L) ≠ [] := by simp
    have hmt9 : ∀ c ∈ ('(' :: ((toL "ref_" ++ b) ++ [')']) : L),
        ¬(c = '\\') ∧ ¬(c = '{') ∧ ¬(c = '}') ∧ ¬(c = '%') ∧ ¬(c = '$')
          ∧ ¬(c = '#') ∧ ¬(c = '&') ∧ ¬(c = '~') ∧ ¬(c = '^') := by
      intro c hc
      rcases List.mem_cons.mp hc with rfl | hc
      · decide
      rcases List.mem_append.mp hc with hc | hc
      · obtain ⟨a1, a2, a3, a4, a5, a6, a7, a8, a9, _, _⟩ :=
          markerChar_not_special (hcontent c hc)
        exact ⟨a1, a2, a3, a4, a5, a6, a7, a8, a9⟩
      · have hcp : c = ')' := by simpa using hc
        subst hcp
        decide
    have hflat : escapeLatex ('(' :: ((toL "ref_" ++ b) ++ [')']))
        = ('(' :: ((toL "ref_" ++ b) ++ [')'])).flatMap escUnder :=
      escapeLatex_flat _ hmtne hmt9
    have hnb : NoBadBS (('(' :: ((toL "ref_" ++ b) ++ [')'])).flatMap escUnder) := by
      have h0 := noBadBS_flat ('(' :: ((toL "ref_" ++ b) ++ [')']))
        (fun c hc => (hmt9 c hc).1) [] trivial
      simpa using h0
    have hfix := mergeOnce_of_noBadBS hnb
    have hFX : (('(' :: ((toL "ref_" ++ b) ++ [')'])).flatMap escUnder)
        = '(' :: (((toL "ref_" ++ b) ++ [')']).flatMap escUnder) := by
      rw [List.flatMap_cons, show escUnder '(' = ['('] from by decide]
      rfl
    have hXchars : ∀ c ∈ ((toL "ref_" ++ b) ++ [')']).flatMap escUnder, ¬ (c = '(') := by
      intro c hc
      rcases escUnder_chars hc with hc | hc | hc
      · rcases List.mem_append.mp hc with hc | hc
        · exact (markerChar_not_special (hcontent c hc)).2.2.2.2.2.2.2.2.2.1
        · have hcp : c = ')' := by simpa using hc
          subst hcp
          decide
      · subst hc; decide
      · subst hc; decide
    have hdp : dropPfxCI (toL "ref_") (((toL "ref_" ++ b) ++ [')']).flatMap escUnder)
        = none := by
      rw [List.flatMap_append, List.flatMap_append]
      rw [show ((toL "ref_" : L).flatMap escUnder) = 'r' :: 'e' :: 'f' :: '\\' :: '_' :: []
        from by decide]
      rw [List.append_assoc]
      exact dropPfxCI_ref_bs _
    have h4 : scanRepl sweepMatcher
        (('(' :: ((toL "ref_" ++ b) ++ [')'])).flatMap escUnder).length
        (('(' :: ((toL "ref_" ++ b) ++ [')'])).flatMap escUnder)
        = ('(' :: ((toL "ref_" ++ b) ++ [')'])).flatMap escUnder := by
      rw [hFX]
      exact sweepScan_marker _ (fun hmem => hXchars '(' hmem rfl) hdp _
    rw [hflat, mergeGo, if_pos hfix, hfix, citeScan_of_noBadBS keys hnb, h4]
  · rw [if_neg hV]
    have hVsub : ∀ t ∈ (splitSeps (toL "ref_" ++ b)).filter
        (fun t => keys.contains (cleanTok t)),
        t ∈ splitSeps (toL "ref_" ++ b) ∧ keys.contains (cleanTok t) = true :=
      fun t ht => ⟨(List.mem_filter.mp ht).1, (List.mem_filter.mp ht).2⟩
    have hVchars : ∀ t ∈ (splitSeps (toL "ref_" ++ b)).filter
        (fun t => keys.contains (cleanTok t)),
        ∀ c ∈ t, c.isAlphanum = true ∨ c = '_' := by
      intro t ht c hc
      have hts := (hVsub t ht).1
      rcases splitSepsF_mem_chars (toL "ref_" ++ b).length [] (toL "ref_" ++ b) t hts c hc
        with h | h
      · simp at h
      · exact markerChar_not_sep (hcontent c h.1) h.2
    have hVne' : ∀ t ∈ (splitSeps (toL "ref_" ++ b)).filter
        (fun t => keys.contains (cleanTok t)), t ≠ [] := by
      intro t ht h0
      have hmem := contains_mem (hVsub t ht).2
      rw [h0] at hmem
      exact hkeys _ hmem rfl
    have hVcomma : ∀ t ∈ (splitSeps (toL "ref_" ++ b)).filter
        (fun t => keys.contains (cleanTok t)), ',' ∉ t := by
      intro t ht hc
      rcases hVchars t ht ',' hc with h | h
      · exact absurd h (by decide)
      · exact absurd h (by decide)
    have hJchars : ∀ c ∈ joinComma ((splitSeps (toL "ref_" ++ b)).filter
        (fun t => keys.contains (cleanTok t))),
        c.isAlphanum = true ∨ c = '_' ∨ c = ',' := by
      intro c hc
      rcases joinComma_chars hc with ⟨v, hv, hcv⟩ | h
      · rcases hVchars v hv c hcv with h | h
        · exact Or.inl h
        · exact Or.inr (Or.inl h)
      · exact Or.inr (Or.inr h)
    have hJne : joinComma ((splitSeps (toL "ref_" ++ b)).filter
        (fun t => keys.contains (cleanTok t))) ≠ [] := by
      cases hVc : (splitSeps (toL "ref_" ++ b)).filter
          (fun t => keys.contains (cleanTok t)) with
      | nil => exact absurd hVc hV
      | cons v vs =>
        cases vs with
        | nil =>
          rw [joinComma]
          exact hVne' v (hVc ▸ List.mem_cons_self v [])
        | cons w ws =>
          rw [show joinComma (v :: w :: ws) = v ++ ',' :: joinComma (w :: ws) from rfl]
          simp
    have hJbrace : '}' ∉ joinComma ((splitSeps (toL "ref_" ++ b)).filter
        (fun t => keys.contains (cleanTok t))) := by
      intro h
      rcases hJchars '}' h with h' | h' | h'
      · exact absurd h' (by decide)
      · exact absurd h' (by decide)
      · exact absurd h' (by decide)
    have hsplitJ : splitCommaGo [] (joinComma ((splitSeps (toL "ref_" ++ b)).filter
        (fun t => keys.contains (cleanTok t))))
        = (splitSeps (toL "ref_" ++ b)).filter (fun t => keys.contains (cleanTok t)) :=
      splitComma_joinComma _ (fun v hv => ⟨hVne' v hv, hVcomma v hv⟩) hV
    have hall : (splitCommaGo [] (joinComma ((splitSeps (toL "ref_" ++ b)).filter
        (fun t => keys.contains (cleanTok t))))).all
        (fun x => keys.contains (trimL x)) = true := by
      rw [hsplitJ]
      apply List.all_eq_true.mpr
      intro x hx
      show keys.contains (trimL x) = true
      have htr : trimL x = x :=
        trimL_id_of x (fun c hc => alnum_or_underscore_not_spc (hVchars x hx c hc))
      have hcl : cleanTok x = x := cleanTok_id_of x (hVchars x hx)
      rw [htr, ← hcl]
      exact (hVsub x hx).2
    have hfixJ := mergeOnce_citeStr _ hJne hJchars
    rw [mergeGo, if_pos hfixJ, hfixJ,
      citeScan_citeStr keys _ hJne hJbrace hall,
      sweepScan_citeStr _ hJchars]

theorem compileCitations_marker_witness :
    compileCitations [toL "ref_1"] ('(' :: ((toL "ref_" ++ toL "1,ref_9") ++ [')'])) =
      citeStr (toL "ref_1") := by
  have h := compileCitations_marker [toL "ref_1"] (toL "1,ref_9") (by decide) (by decide)
    (by
      intro c hc
      rw [show (toL "1,ref_9").getLast? = some '9' from rfl] at hc
      rw [← Option.some.inj hc]
      decide)
    (by decide)
  rw [h]
  decide

/-! ## The Escape Normalizer and the JSON Extractor (`fixAIJsonEscaping` 11-55,
`extractJson` 537-625, `findBalancedJsonEnd` 644-678) -/

/-- The JS `\s` / `String.trim` whitespace class. -/
def isJsWs (c : Char) : Bool :=
  isSpc c || c = '\u00A0' || c = '\u1680' || ('\u2000' ≤ c && c ≤ '\u200A')
    || c = '\u2028' || c = '\u2029' || c = '\u202F' || c = '\u205F'
    || c = '\u3000' || c = '\uFEFF'

/-- JS `String.trim()`. -/
def jsTrim (s : L) : L := ((s.dropWhile isJsWs).reverse.dropWhile isJsWs).reverse

/-- The opening-fence strip `replace(/^```(?:json)?\s*/i, "")`. -/
def stripFenceOpen (s : L) : L :=
  match dropPfx (toL "```") s with
  | none => s
  | some s1 =>
    match dropPfxCI (toL "json") s1 with
    | none => s1.dropWhile isJsWs
    | some s2 => s2.dropWhile isJsWs

/-- The closing-fence strip `replace(/\s*```$/g, "")`: the match anchored at
the end of the string removes the final three backticks together with the
whitespace run before them. -/
def stripFenceClose (s : L) : L :=
  match dropPfx (toL "```") s.reverse with
  | none => s
  | some r1 => (r1.dropWhile isJsWs).reverse

/-- The cleaned text of `extractJson` steps 1-2 (trim, then both fence
strips). -/
def cleanOf (content : L) : L := stripFenceClose (stripFenceOpen (jsTrim content))

/-- JS `String.indexOf` for a single character, as an optional index. -/
def firstIdx (p : Char → Bool) : L → Option Nat
  | [] => none
  | c :: rest => if p c then some 0 else (firstIdx p rest).map (· + 1)

/-- The object-or-array dispatch of `extractJson` (lines 544-557): the start
index and the open/close pair, `none` when neither `\x7b` nor `[` occurs. -/
def jsonStart (s : L) : Option (Nat × Char × Char) :=
  match firstIdx (fun c => c = '{') s, firstIdx (fun c => c = '[') s with
  | some i, none => some (i, '{', '}')
  | some i, some j => if i < j then some (i, '{', '}') else some (j, '[', ']')
  | none, some j => some (j, '[', ']')
  | none, none => none

/-- The depth/string/escape scanner of `findBalancedJsonEnd` (644-678);
`i` is the absolute index of the head character. -/
def balEnd (oc cc : Char) : Int → Bool → Bool → Nat → L → Option Nat
  | _, _, _, _, [] => none
  | depth, inString, escaped, i, c :: rest =>
    if inString = true then
      if c = '\\' ∧ escaped = false then balEnd oc cc depth true true (i + 1) rest
      else if c = '"' ∧ escaped = false then balEnd oc cc depth false escaped (i + 1) rest
      else balEnd oc cc depth true false (i + 1) rest
    else if c = '"' then balEnd oc cc depth true escaped (i + 1) rest
    else if c = oc then balEnd oc cc (depth + 1) false escaped (i + 1) rest
    else if c = cc then
      if depth - 1 = 0 then some i
      else balEnd oc cc (depth - 1) false escaped (i + 1) rest
    else balEnd oc cc depth false escaped (i + 1) rest

/-- `findBalancedJsonEnd(text, startIndex, openChar, closeChar)`. -/
def findBalancedJsonEnd (text : L) (startIndex : Nat) (openChar closeChar : Char) :
    Option Nat :=
  balEnd openChar closeChar 0 false false startIndex (text.drop startIndex)

/-- The Escape Normalizer state machine (`fixAIJsonEscaping`, 11-55): `'b'`
(and `'/'`… kept) — valid next characters are `"`, `\`, `/`, `f`, `n`, `r`,
`t`, `u`; any other backslash inside a string is doubled. -/
def fixAIJson : Bool → Bool → L → L
  | _, _, [] => []
  | inString, escape, c :: rest =>
    if c = '"' ∧ escape = false then '"' :: fixAIJson (!inString) false rest
    else if inString = true ∧ c = '\\' ∧ escape = false then
      if (match rest.head? with
          | some n => n = '"' || n = '\\' || n = '/' || n = 'f' || n = 'n'
              || n = 'r' || n = 't' || n = 'u'
          | none => false) = true then
        '\\' :: fixAIJson inString true rest
      else '\\' :: '\\' :: fixAIJson inString false rest
    else c :: fixAIJson inString false rest

/-- `fixAIJsonEscaping` entry point. -/
def fixAIJsonEscaping (s : L) : L := fixAIJson false false s

/-- Parsed JSON values (`JSON.parse` results); objects keep their members in
order, numbers keep their raw text. -/
inductive JVal
  | str (s : L)
  | num (raw : L)
  | bool (b : Bool)
  | null
  | arr (xs : List JVal)
  | obj (fields : List (L × JVal))

/-- `JSON.parse` failure classes, keyed to the error-message tests in
`extractJson`: `eof` = "Unexpected end of JSON input", `unterminated` =
"Unterminated string", `trailing` = "Unexpected non-whitespace character
after JSON", `bad` = any other syntax error. -/
inductive PErr
  | eof
  | unterminated
  | trailing
  | bad
deriving DecidableEq

/-- JSON insignificant whitespace (the grammar's, not JS `\s`). -/
def jsonWs (c : Char) : Bool := c = ' ' || c = '\t' || c = '\n' || c = '\r'

/-- Hex digit value. -/
def hexVal (c : Char) : Option Nat :=
  if c.isDigit then some (c.toNat - 48)
  else if 'a' ≤ c ∧ c ≤ 'f' then some (c.toNat - 87)
  else if 'A' ≤ c ∧ c ≤ 'F' then some (c.toNat - 55)
  else none

/-- The JSON short escapes; `\b` IS a valid JSON escape (backspace), which is
what defeats the Escape Normalizer on `\begin`. -/
def jsonEsc (e : Char) : Option Char :=
  if e = '"' then some '"'
  else if e = '\\' then some '\\'
  else if e = '/' then some '/'
  else if e = 'b' then some '\x08'
  else if e = 'f' then some '\x0c'
  else if e = 'n' then some '\n'
  else if e = 'r' then some '\x0d'
  else if e = 't' then some '\t'
  else none

/-- JSON string body (after the opening quote): returns the decoded
characters and the remainder after the closing quote. -/
def parseStr : Nat → L → Except PErr (L × L)
  | 0, _ => .error .unterminated
  | _ + 1, [] => .error .unterminated
  | fuel + 1, c :: rest =>
    if c = '"' then .ok ([], rest)
    else if c = '\\' then
      match rest with
      | [] => .error .unterminated
      | e :: rest2 =>
        if e = 'u' then
          match rest2 with
          | h1 :: h2 :: h3 :: h4 :: rest3 =>
            match hexVal h1, hexVal h2, hexVal h3, hexVal h4 with
            | some a, some b, some c2, some d =>
              if 0xD800 ≤ ((a * 16 + b) * 16 + c2) * 16 + d
                  ∧ ((a * 16 + b) * 16 + c2) * 16 + d ≤ 0xDFFF then .error .bad
              else
                match parseStr fuel rest3 with
                | .ok p => .ok (Char.ofNat (((a * 16 + b) * 16 + c2) * 16 + d) :: p.1, p.2)
                | .error er => .error er
            | _, _, _, _ => .error .bad
          | _ => .error .bad
        else
          match jsonEsc e with
          | some ch =>
            match parseStr fuel rest2 with
            | .ok p => .ok (ch :: p.1, p.2)
            | .error er => .error er
          | none => .error .bad
    else if c.toNat < 32 then .error .bad
    else
      match parseStr fuel rest with
      | .ok p => .ok (c :: p.1, p.2)
      | .error er => .error er

/-- JSON fraction part. -/
def parseFrac (r : L) : Except PErr (L × L) :=
  if r.head? = some '.' then
    if r.tail.takeWhile Char.isDigit = [] then
      if r.tail = [] then .error .eof else .error .bad
    else .ok ('.' :: r.tail.takeWhile Char.isDigit,
      r.tail.drop (r.tail.takeWhile Char.isDigit).length)
  else .ok ([], r)

/-- JSON exponent part. -/
def parseExp (r : L) : Except PErr (L × L) :=
  match r with
  | [] => .ok ([], [])
  | c :: r2 =>
    if c = 'e' || c = 'E' then
      match r2 with
      | s2 :: r3 =>
        if s2 = '+' || s2 = '-' then
          if r3.takeWhile Char.isDigit = [] then
            if r3 = [] then .error .eof else .error .bad
          else .ok (c :: s2 :: r3.takeWhile Char.isDigit,
            r3.drop (r3.takeWhile Char.isDigit).length)
        else
          if r2.takeWhile Char.isDigit = [] then .error .bad
          else .ok (c :: r2.takeWhile Char.isDigit,
            r2.drop (r2.takeWhile Char.isDigit).length)
      | [] => .error .eof
    else .ok ([], c :: r2)

/-- JSON number (no leading zeros, optional fraction and exponent), kept as
raw text. -/
def parseNum (s : L) : Except PErr (JVal × L) :=
  let neg : L := if s.head? = some '-' then ['-'] else []
  match s.drop neg.length with
  | [] => .error .eof
  | d :: ds =>
    if d.isDigit then
      let ip := if d = '0' then ['0'] else (d :: ds).takeWhile Char.isDigit
      match parseFrac ((d :: ds).drop ip.length) with
      | .error e => .error e
      | .ok (fp, r2) =>
        match parseExp r2 with
        | .error e => .error e
        | .ok (ep, r3) => .ok (JVal.num (neg ++ ip ++ fp ++ ep), r3)
    else .error .bad

/-- Parser modes: a value, the element loop of an array, the member loop of
an object. -/
inductive PMode
  | val
  | arrElems (acc : List JVal)
  | objMems (acc : List (L × JVal))

/-- The recursive JSON grammar, fuel-bounded. -/
def parseF : Nat → PMode → L → Except PErr (JVal × L)
  | 0, _, _ => .error .eof
  | fuel + 1, .val, s =>
    match s.dropWhile jsonWs with
    | [] => .error .eof
    | c :: rest =>
      if c = '{' then
        match rest.dropWhile jsonWs with
        | [] => .error .eof
        | d :: rest2 =>
          if d = '}' then .ok (.obj [], rest2) else parseF fuel (.objMems []) rest
      else if c = '[' then
        match rest.dropWhile jsonWs with
        | [] => .error .eof
        | d :: rest2 =>
          if d = ']' then .ok (.arr [], rest2) else parseF fuel (.arrElems []) rest
      else if c = '"' then
        match parseStr rest.length rest with
        | .ok p => .ok (.str p.1, p.2)
        | .error er => .error er
      else if c = 't' then
        match dropPfx (toL "rue") rest with
        | some r => .ok (.bool true, r)
        | none => .error .bad
      else if c = 'f' then
        match dropPfx (toL "alse") rest with
        | some r => .ok (.bool false, r)
        | none => .error .bad
      else if c = 'n' then
        match dropPfx (toL "ull") rest with
        | some r => .ok (.null, r)
        | none => .error .bad
      else if c = '-' || c.isDigit then parseNum (c :: rest)
      else .error .bad
  | fuel + 1, .arrElems acc, s =>
    match parseF fuel .val s with
    | .error e => .error e
    | .ok (v, r) =>
      match r.dropWhile jsonWs with
      | [] => .error .eof
      | d :: r2 =>
        if d = ',' then parseF fuel (.arrElems (acc ++ [v])) r2
        else if d = ']' then .ok (.arr (acc ++ [v]), r2)
        else .error .bad
  | fuel + 1, .objMems acc, s =>
    match s.dropWhile jsonWs with
    | [] => .error .eof
    | c :: rest =>
      if c = '"' then
        match parseStr rest.length rest with
        | .error e => .error e
        | .ok (key, r1) =>
          match r1.dropWhile jsonWs with
          | [] => .error .eof
          | d :: r2 =>
            if d = ':' then
              match parseF fuel .val r2 with
              | .error e => .error e
              | .ok (v, r3) =>
                match r3.dropWhile jsonWs with
                | [] => .error .eof
                | e2 :: r4 =>
                  if e2 = ',' then parseF fuel (.objMems (acc ++ [(key, v)])) r4
                  else if e2 = '}' then .ok (.obj (acc ++ [(key, v)]), r4)
                  else .error .bad
            else .error .bad
      else .error .bad

/-- `JSON.parse`: a top-level value followed only by whitespace. -/
def jsonParse (s : L) : Except PErr JVal :=
  match parseF (2 * s.length + 2) .val s with
  | .error e => .error e
  | .ok (v, r) => if r.dropWhile jsonWs = [] then .ok v else .error .trailing

/-- The property-shape test `/^\s*"[^"]+"\s*:/` used before wrapping bare
`"key": value` text in braces. -/
def looksLikeProperty (s : L) : Bool :=
  match s.dropWhile isJsWs with
  | '"' :: r =>
    if r.takeWhile (fun c => !(c = '"')) = [] then false
    else
      match r.drop (r.takeWhile (fun c => !(c = '"'))).length with
      | '"' :: r2 => ((r2.dropWhile isJsWs).head? = some ':')
      | _ => false
  | _ => false

/-- `extractJson` failure classes: `noStructure` = "No JSON object or array
found", `truncated` = "AI_OUTPUT_TRUNCATED", `parseFail` = "Failed to parse
JSON". -/
inductive JErr
  | noStructure
  | truncated
  | parseFail
deriving DecidableEq

/-- Brace-wrapped reparse attempt `JSON.parse(\x7b...\x7d)`. -/
def tryWrap (s : L) : Option JVal :=
  match jsonParse ('{' :: (s ++ ['}'])) with
  | .ok v => some v
  | .error _ => none

/-- The parse ladder of `extractJson` step 3 (lines 576-624): plain parse,
wrap when the error is trailing text and the text looks like a bare
property, the Escape Normalizer retry, wrap of the fixed text, then the
truncation test on the last error. -/
def parseLadder (clean : L) : Except JErr JVal :=
  match jsonParse clean with
  | .ok v => .ok v
  | .error e1 =>
    match (if e1 = PErr.trailing ∧ looksLikeProperty clean = true
        then tryWrap clean else none) with
    | some v => .ok v
    | none =>
      match jsonParse (fixAIJsonEscaping clean) with
      | .ok v => .ok v
      | .error e2 =>
        match (if looksLikeProperty (fixAIJsonEscaping clean) = true
            then tryWrap (fixAIJsonEscaping clean) else none) with
        | some v => .ok v
        | none =>
          if e2 = PErr.eof ∨ e2 = PErr.unterminated then .error .truncated
          else .error .parseFail

/-- The JSON Extractor `extractJson` (537-625). -/
def extractJson (content : L) : Except JErr JVal :=
  match jsonStart (cleanOf content) with
  | none => .error .noStructure
  | some (start, oc, cc) =>
    parseLadder
      (match findBalancedJsonEnd (cleanOf content) start oc cc with
       | some e => ((cleanOf content).drop start).take (e + 1 - start)
       | none => (cleanOf content).drop start)

/-- The JSON object text of the C1 scenario, with its string value holding
the literal characters backslash-b-e-g-i-n. -/
def c1input : L := toL "\x7b\"content\": \"\\begin\x7bitemize\x7d\"\x7d"

/-- C1: the round-trip fails in the code. On the object text whose string
value holds the literal characters backslash, b, e, g, i, n, the first
`JSON.parse` SUCCEEDS — `\b` is a valid JSON escape denoting backspace — so
the Escape Normalizer fallback never runs and the extracted content value is
the backspace character (U+0008) followed by "egin{itemize}", not the
original backslash-letter sequence the spec promises. -/
theorem extractJson_c1_backspace :
    extractJson c1input
      = Except.ok (JVal.obj [(toL "content",
          JVal.str ('\x08' :: toL "egin\x7bitemize\x7d"))])
    ∧ ('\x08' :: toL "egin\x7bitemize\x7d") ≠ toL "\\begin\x7bitemize\x7d" :=
  ⟨rfl, by decide⟩

theorem head?_mem {l : L} {x : Char} (h : l.head? = some x) : x ∈ l := by
  cases l with
  | nil => simp at h
  | cons a t =>
    simp at h
    rw [h]
    exact List.mem_cons_self x t

theorem mem_take_mono {s : L} {m n : Nat} (hmn : m ≤ n) {x : Char}
    (hx : x ∈ s.take m) : x ∈ s.take n := by
  have heq : s.take m = (s.take n).take m := by
    rw [List.take_take, Nat.min_eq_left hmn]
  rw [heq] at hx
  exact List.take_subset _ _ hx

theorem firstIdx_none_iff (p : Char → Bool) (s : L) :
    firstIdx p s = none ↔ ∀ x ∈ s, p x = false := by
  induction s with
  | nil => simp [firstIdx]
  | cons c rest ih =>
    rw [firstIdx]
    by_cases hc : p c
    · rw [if_pos hc]
      constructor
      · intro h; simp at h
      · intro h
        exact absurd (h c (List.mem_cons_self c rest)) (by simp [hc])
    · rw [if_neg hc]
      constructor
      · intro h
        have h0 : firstIdx p rest = none := by
          cases hfi : firstIdx p rest
          · rfl
          · rw [hfi] at h; simp at h
        intro x hx
        rcases List.mem_cons.mp hx with hxx | hxx
        · subst hxx
          cases hpc : p x
          · rfl
          · exact absurd hpc hc
        · exact (ih.mp h0) x hxx
      · intro h
        rw [ih.mpr (fun x hx => h x (List.mem_cons_of_mem c hx))]
        rfl

theorem firstIdx_some (p : Char → Bool) :
    ∀ (s : L) (i : Nat), firstIdx p s = some i →
      (∃ c, (s.drop i).head? = some c ∧ p c = true) ∧ ∀ x ∈ s.take i, p x = false := by
  intro s
  induction s with
  | nil => intro i h; simp [firstIdx] at h
  | cons c rest ih =>
    intro i h
    rw [firstIdx] at h
    by_cases hc : p c
    · rw [if_pos hc] at h
      injection h with h0
      subst h0
      exact ⟨⟨c, rfl, hc⟩, by simp⟩
    · rw [if_neg hc] at h
      cases hfi : firstIdx p rest with
      | none => rw [hfi] at h; simp at h
      | some j =>
        rw [hfi] at h
        simp at h
        subst h
        obtain ⟨⟨d, hd1, hd2⟩, htk⟩ := ih j hfi
        refine ⟨⟨d, ?_, hd2⟩, ?_⟩
        · rw [List.drop_succ_cons]
          exact hd1
        · rw [List.take_succ_cons]
          intro x hx
          rcases List.mem_cons.mp hx with hxx | hxx
          · subst hxx
            cases hpc : p x
            · rfl
            · exact absurd hpc hc
          · exact htk x hxx

theorem jsonStart_none_iff (s : L) : jsonStart s = none ↔ ('{' ∉ s ∧ '[' ∉ s) := by
  constructor
  · intro h
    unfold jsonStart at h
    constructor
    · intro hm
      cases hf1 : firstIdx (fun c => c = '{') s with
      | none =>
        have := (firstIdx_none_iff _ s).mp hf1 '{' hm
        simp at this
      | some i =>
        rw [hf1] at h
        cases hf2 : firstIdx (fun c => c = '[') s with
        | none => rw [hf2] at h; simp at h
        | some j =>
          rw [hf2] at h
          have h' : (if i < j then some (i, '{', '}') else some (j, '[', ']'))
              = (none : Option (Nat × Char × Char)) := h
          by_cases hij : i < j
          · rw [if_pos hij] at h'; simp at h'
          · rw [if_neg hij] at h'; simp at h'
    · intro hm
      cases hf2 : firstIdx (fun c => c = '[') s with
      | none =>
        have := (firstIdx_none_iff _ s).mp hf2 '[' hm
        simp at this
      | some j =>
        rw [hf2] at h
        cases hf1 : firstIdx (fun c => c = '{') s with
        | none => rw [hf1] at h; simp at h
        | some i =>
          rw [hf1] at h
          have h' : (if i < j then some (i, '{', '}') else some (j, '[', ']'))
              = (none : Option (Nat × Char × Char)) := h
          by_cases hij : i < j
          · rw [if_pos hij] at h'; simp at h'
          · rw [if_neg hij] at h'; simp at h'
  · intro hmem
    have h1 : firstIdx (fun c => c = '{') s = none :=
      (firstIdx_none_iff _ s).mpr (fun x hx =>
        decide_eq_false_iff_not.mpr (fun hxx => hmem.1 (hxx ▸ hx)))
    have h2 : firstIdx (fun c => c = '[') s = none :=
      (firstIdx_none_iff _ s).mpr (fun x hx =>
        decide_eq_false_iff_not.mpr (fun hxx => hmem.2 (hxx ▸ hx)))
    unfold jsonStart
    rw [h1, h2]

theorem jsonStart_mem {s : L} {i : Nat} {oc cc : Char}
    (h : jsonStart s = some (i, oc, cc)) : '{' ∈ s ∨ '[' ∈ s := by
  unfold jsonStart at h
  cases hf1 : firstIdx (fun c => c = '{') s with
  | some i1 =>
    left
    obtain ⟨⟨d, hd1, hd2⟩, _⟩ := firstIdx_some _ s i1 hf1
    simp at hd2
    subst hd2
    exact List.drop_subset _ _ (head?_mem hd1)
  | none =>
    cases hf2 : firstIdx (fun c => c = '[') s with
    | some j =>
      right
      obtain ⟨⟨d, hd1, hd2⟩, _⟩ := firstIdx_some _ s j hf2
      simp at hd2
      subst hd2
      exact List.drop_subset _ _ (head?_mem hd1)
    | none => rw [hf1, hf2] at h; simp at h

theorem jsonStart_spec {s : L} {i : Nat} {oc cc : Char}
    (h : jsonStart s = some (i, oc, cc)) :
    (∀ x ∈ s.take i, ¬(x = '{') ∧ ¬(x = '[')) ∧ (s.drop i).head? = some oc
      ∧ (oc = '{' ∨ oc = '[') := by
  unfold jsonStart at h
  cases hf1 : firstIdx (fun c => c = '{') s with
  | none =>
    cases hf2 : firstIdx (fun c => c = '[') s with
    | none => rw [hf1, hf2] at h; simp at h
    | some j =>
      rw [hf1, hf2] at h
      simp at h
      obtain ⟨rfl, rfl, rfl⟩ := h
      obtain ⟨⟨d, hd1, hd2⟩, htk⟩ := firstIdx_some _ s j hf2
      simp at hd2
      subst hd2
      refine ⟨?_, hd1, Or.inr rfl⟩
      intro x hx
      constructor
      · intro hxx
        have hxs := (firstIdx_none_iff _ s).mp hf1 x (List.take_subset _ _ hx)
        rw [hxx] at hxs
        simp at hxs
      · intro hxx
        have hxs := htk x hx
        rw [hxx] at hxs
        simp at hxs
  | some i1 =>
    cases hf2 : firstIdx (fun c => c = '[') s with
    | none =>
      rw [hf1, hf2] at h
      simp at h
      obtain ⟨rfl, rfl, rfl⟩ := h
      obtain ⟨⟨d, hd1, hd2⟩, htk⟩ := firstIdx_some _ s i1 hf1
      simp at hd2
      subst hd2
      refine ⟨?_, hd1, Or.inl rfl⟩
      intro x hx
      constructor
      · intro hxx
        have hxs := htk x hx
        rw [hxx] at hxs
        simp at hxs
      · intro hxx
        have hxs := (firstIdx_none_iff _ s).mp hf2 x (List.take_subset _ _ hx)
        rw [hxx] at hxs
        simp at hxs
    | some j =>
      rw [hf1, hf2] at h
      have h' : (if i1 < j then some (i1, '{', '}') else some (j, '[', ']'))
          = some (i, oc, cc) := h
      by_cases hij : i1 < j
      · rw [if_pos hij] at h'
        simp at h'
        obtain ⟨rfl, rfl, rfl⟩ := h'
        obtain ⟨⟨d, hd1, hd2⟩, htk⟩ := firstIdx_some _ s i1 hf1
        obtain ⟨_, htk2⟩ := firstIdx_some _ s j hf2
        simp at hd2
        subst hd2
        refine ⟨?_, hd1, Or.inl rfl⟩
        intro x hx
        constructor
        · intro hxx
          have hxs := htk x hx
          rw [hxx] at hxs
          simp at hxs
        · intro hxx
          have hxs := htk2 x (mem_take_mono (Nat.le_of_lt hij) hx)
          rw [hxx] at hxs
          simp at hxs
      · rw [if_neg hij] at h'
        simp at h'
        obtain ⟨rfl, rfl, rfl⟩ := h'
        obtain ⟨⟨d, hd1, hd2⟩, htk⟩ := firstIdx_some _ s j hf2
        obtain ⟨_, htk2⟩ := firstIdx_some _ s i1 hf1
        simp at hd2
        subst hd2
        refine ⟨?_, hd1, Or.inr rfl⟩
        intro x hx
        constructor
        · intro hxx
          have hxs := htk2 x (mem_take_mono (Nat.le_of_not_lt hij) hx)
          rw [hxx] at hxs
          simp at hxs
        · intro hxx
          have hxs := htk x hx
          rw [hxx] at hxs
          simp at hxs

theorem parseLadder_ne_noStructure (clean : L) :
    parseLadder clean ≠ Except.error JErr.noStructure := by
  unfold parseLadder
  repeat' split
  all_goals simp

/-- C9: `extractJson` fails with the NoStructureFound error exactly when the
trimmed, fence-stripped text has neither an opening brace nor an opening
bracket; when one exists, the chosen start index is the earlier of the first
brace and the first bracket (no structural character precedes it, and it
holds the selected opening character), and the error is not raised. -/
theorem extractJson_noStructure_iff (c : L) :
    (extractJson c = Except.error JErr.noStructure ↔
      ('{' ∉ cleanOf c ∧ '[' ∉ cleanOf c)) ∧
    (∀ i oc cc, jsonStart (cleanOf c) = some (i, oc, cc) →
      (∀ x ∈ (cleanOf c).take i, ¬(x = '{') ∧ ¬(x = '[')) ∧
      ((cleanOf c).drop i).head? = some oc ∧ (oc = '{' ∨ oc = '[')) := by
  constructor
  · cases hjs : jsonStart (cleanOf c) with
    | none =>
      constructor
      · intro _
        exact (jsonStart_none_iff _).mp hjs
      · intro _
        unfold extractJson
        rw [hjs]
    | some p =>
      obtain ⟨i, oc, cc⟩ := p
      have hx : extractJson c = parseLadder
          (match findBalancedJsonEnd (cleanOf c) i oc cc with
           | some e => ((cleanOf c).drop i).take (e + 1 - i)
           | none => (cleanOf c).drop i) := by
        unfold extractJson
        rw [hjs]
      constructor
      · intro he
        rw [hx] at he
        exact absurd he (parseLadder_ne_noStructure _)
      · intro hmem
        exfalso
        rcases jsonStart_mem hjs with hm | hm
        · exact hmem.1 hm
        · exact hmem.2 hm
  · intro i oc cc hjs2
    exact jsonStart_spec hjs2

theorem extractJson_noStructure_iff_witness :
    extractJson (toL "abc [1, 2]") ≠ Except.error JErr.noStructure ∧
    (∀ x ∈ (cleanOf (toL "abc [1, 2]")).take 4, ¬(x = '{') ∧ ¬(x = '[')) := by
  have h := extractJson_noStructure_iff (toL "abc [1, 2]")
  constructor
  · intro he
    exact ((h.1.mp he).2) (by decide)
  · exact (h.2 4 '[' ']' (by decide)).1

/-! ## The Markup Sanitizer (`sanitizeLatexOutput`, utils.ts 62-126) and the
Patch Applier (`applyPatches`, utils.ts 684-719) -/

/-- JS multiline `^`: the position is the string start or follows a line
terminator. -/
def lineStart (prev : Option Char) : Bool :=
  match prev with
  | none => true
  | some c => c = '\n' || c = '\x0d' || c = '\u2028' || c = '\u2029'

/-- The JS dot `.` character class (anything but a line terminator). -/
def dotChar (c : Char) : Bool :=
  !(c = '\n') && !(c = '\x0d') && !(c = '\u2028') && !(c = '\u2029')

/-- Global regex replace with one-character lookbehind/anchor state: the
matcher sees the previous input character and, on a match, reports the
replacement, the last input character of the matched span, and the
remainder. -/
def scanP (m : Option Char → L → Option (L × Option Char × L)) :
    Nat → Option Char → L → L
  | _, _, [] => []
  | 0, _, s => s
  | fuel + 1, prev, c :: rest =>
    match m prev (c :: rest) with
    | some (repl, mlast, r) => repl ++ scanP m fuel mlast r
    | none => c :: scanP m fuel (some c) rest

/-- Non-global regex replace (first match only). -/
def scanOnceP (m : Option Char → L → Option (L × L)) : Nat → Option Char → L → L
  | _, _, [] => []
  | 0, _, s => s
  | fuel + 1, prev, c :: rest =>
    match m prev (c :: rest) with
    | some (repl, r) => repl ++ r
    | none => c :: scanOnceP m fuel (some c) rest

/-- Transform 1, the blockquote delete `/^>.*(\x0d?\n|$)/gm`. -/
def bqMatcher (prev : Option Char) (s : L) : Option (L × Option Char × L) :=
  if lineStart prev = true then
    match dropPfx (toL ">") s with
    | none => none
    | some t =>
      let r := t.drop (t.takeWhile dotChar).length
      if r = [] then some ([], some '>', [])
      else if r.head? = some '\x0d' ∧ r.tail.head? = some '\n' then
        some ([], some '\n', r.tail.tail)
      else if r.head? = some '\n' then some ([], some '\n', r.tail)
      else none
  else none

/-- Transform 2, the lazy Thinking-Process block delete: the block runs to
the first blank line (or the end). -/
def thinkBlockMatcher (prev : Option Char) (s : L) : Option (L × Option Char × L) :=
  if lineStart prev = true then
    match dropPfxCI (toL "Thinking Process:") s with
    | none => none
    | some t =>
      match findSub (toL "\n\n") t with
      | some p => some ([], some '\n', t.drop (p + 2))
      | none => some ([], some ':', [])
  else none

/-- Index of the last newline in a whitespace run. -/
def lastNlIdx (w : L) : Option Nat :=
  (firstIdx (fun c => c = '\n') w.reverse).map (fun j => w.length - 1 - j)

/-- The tail `\s*(\x0d?\n|$)` of the starred-thinking line regexes: the
greedy whitespace run backtracks so the match either reaches the end of the
string or ends just after the last newline of the run. -/
def wsTailMatch (t4 : L) : Option (L × Option Char × L) :=
  let w := t4.takeWhile isJsWs
  let r := t4.drop w.length
  if r = [] then some ([], some '*', [])
  else
    match lastNlIdx w with
    | some p => some ([], some '\n', w.drop (p + 1) ++ r)
    | none => none

/-- Transform 3, the starred-thinking line delete. -/
def mdThinkMatcher (prev : Option Char) (s : L) : Option (L × Option Char × L) :=
  if lineStart prev = true then
    match dropPfx (toL "*") s with
    | none => none
    | some t =>
      match dropPfxCI (toL "Thinking") t with
      | none => none
      | some t2 =>
        match dropPfx (toL "*") (t2.dropWhile (fun x => x = '.')) with
        | none => none
        | some t4 => wsTailMatch t4
  else none

/-- Transform 4, the starred thinking-process line delete. -/
def mdThinkProcMatcher (prev : Option Char) (s : L) : Option (L × Option Char × L) :=
  if lineStart prev = true then
    match dropPfx (toL "*") s with
    | none => none
    | some t =>
      match dropPfxCI (toL "Thinking") t with
      | none => none
      | some t2 =>
        if t2.takeWhile isJsWs = [] then none
        else
          match dropPfxCI (toL "Process") (t2.dropWhile isJsWs) with
          | none => none
          | some t3 =>
            match dropPfx (toL "*") (t3.dropWhile (fun x => x = '.')) with
            | none => none
            | some t4 => wsTailMatch t4
  else none

/-- Transforms 5, 6, 10, 11: strip a case-insensitive line-start phrase plus
an optional colon or period and trailing whitespace (first match only). -/
def prefixLineMatcher (pat : L) (prev : Option Char) (s : L) : Option (L × L) :=
  if lineStart prev = true then
    match dropPfxCI pat s with
    | none => none
    | some t =>
      if t.head? = some ':' ∨ t.head? = some '.' then
        some ([], t.tail.dropWhile isJsWs)
      else some ([], t.dropWhile isJsWs)
  else none

/-- Case-insensitive substring search. -/
def findSubCI (pat : L) : L → Option Nat
  | [] => if pat = [] then some 0 else none
  | c :: rest =>
    if (dropPfxCI pat (c :: rest)).isSome then some 0
    else (findSubCI pat rest).map (· + 1)

/-- Transform 7, the XML-style thought-tag delete (lazy body, both tags
case-insensitive). -/
def thinkTagMatcher (_ : Option Char) (s : L) : Option (L × Option Char × L) :=
  match dropPfxCI (toL "<think>") s with
  | none => none
  | some t =>
    match findSubCI (toL "</think>") t with
    | none => none
    | some p => some ([], some '>', (t.drop p).drop 8)

/-- Transforms 8, 9: strip a case-insensitive prefix anchored at the very
start of the string, plus trailing whitespace. -/
def anchorStripCI (pat : L) (s : L) : L :=
  match dropPfxCI pat s with
  | none => s
  | some t => t.dropWhile isJsWs

/-- Transform 12, the bold conversion. -/
def boldMatcher (_ : Option Char) (s : L) : Option (L × Option Char × L) :=
  match dropPfx (toL "**") s with
  | none => none
  | some t =>
    let run := t.takeWhile (fun c => !(c = '*'))
    if run = [] then none
    else
      match dropPfx (toL "**") (t.drop run.length) with
      | none => none
      | some r => some (toL "\\textbf" ++ '{' :: (run ++ ['}']), some '*', r)

/-- Transforms 13-16, the Markdown header conversions: leading whitespace,
the hash tag, mandatory whitespace, then the line content up to a newline or
the end (the greedy whitespace run gives characters back to the content
group when the line would otherwise be empty). -/
def headerMatcher (tag cmd : L) (prev : Option Char) (s : L) :
    Option (L × Option Char × L) :=
  if lineStart prev = true then
    match dropPfx tag (s.drop (s.takeWhile isJsWs).length) with
    | none => none
    | some t =>
      let w := t.takeWhile isJsWs
      let rem := t.drop w.length
      if w = [] then none
      else if rem = [] then
        let ds := (w.reverse.takeWhile dotChar).reverse
        if ds = [] then none
        else if ds.length < w.length then
          some (cmd ++ '{' :: (ds ++ ['}']), some (ds.getLastD '#'), [])
        else if 2 ≤ w.length then
          some (cmd ++ '{' :: (w.drop 1 ++ ['}']), some (w.getLastD '#'), [])
        else none
      else
        let content := rem.takeWhile dotChar
        let r2 := rem.drop content.length
        if r2 = [] then
          some (cmd ++ '{' :: (content ++ ['}']), some (content.getLastD '#'), [])
        else if r2.head? = some '\n' then
          some (cmd ++ '{' :: (content ++ ['}']), some (content.getLastD '#'), r2)
        else none
  else none

/-- Transform 17, the Universal Math Repair: an unescaped closing dollar
followed by an orphaned subscript or superscript is merged back into math
mode, dropping the whitespace around the operator. -/
def mathRepairMatcher (prev : Option Char) (s : L) : Option (L × Option Char × L) :=
  if prev = some '\\' then none
  else
    match dropPfx (toL "$") s with
    | none => none
    | some t =>
      match t.dropWhile isJsWs with
      | [] => none
      | op :: t2 =>
        if op = '_' ∨ op = '^' then
          if (t2.dropWhile isJsWs).head? = some '{' then
            let u := (t2.dropWhile isJsWs).tail
            let inner := u.takeWhile (fun c => !(c = '}'))
            if (u.drop inner.length).head? = some '}' then
              some (op :: '{' :: (inner ++ ['}', '$']), some '}',
                (u.drop inner.length).tail)
            else none
          else
            match t2.dropWhile isJsWs with
            | [] => none
            | d :: r => if d.isAlphanum then some ([op, d, '$'], some d, r) else none
        else none

/-- Transforms 18, 19: a literal command replaced globally. -/
def litGMatcher (pat repl : L) (mlast : Char) (_ : Option Char) (s : L) :
    Option (L × Option Char × L) :=
  match dropPfx pat s with
  | some r => some (repl, some mlast, r)
  | none => none

/-- Transform 20, the textcolor strip (keeps the second argument). -/
def textcolorMatcher (_ : Option Char) (s : L) : Option (L × Option Char × L) :=
  match dropPfx (toL "\\textcolor") s with
  | none => none
  | some t =>
    match parseBraced t with
    | none => none
    | some p =>
      if p.2.head? = some '{' then
        let u := p.2.tail
        let inner := u.takeWhile (fun c => !(c = '}'))
        if (u.drop inner.length).head? = some '}' then
          some (inner, some '}', (u.drop inner.length).tail)
        else none
      else none

/-- Transform 21, the color strip. -/
def colorMatcher (_ : Option Char) (s : L) : Option (L × Option Char × L) :=
  match dropPfx (toL "\\color") s with
  | none => none
  | some t =>
    match parseBraced t with
    | none => none
    | some p => some ([], some '}', p.2)

/-- Transform 22, theta math-mode repair (with the not-a-dollar lookbehind). -/
def thetaMatcher (prev : Option Char) (s : L) : Option (L × Option Char × L) :=
  if prev = some '$' then none
  else
    match dropPfx (toL "\\theta") s with
    | some r => some (toL "$\\theta$", some 'a', r)
    | none => none

/-- One global-replace pass (`String.replace` with a `g` regex). -/
def gStage (m : Option Char → L → Option (L × Option Char × L)) (s : L) : L :=
  scanP m s.length none s

/-- One first-match-only replace pass. -/
def onceStage (m : Option Char → L → Option (L × L)) (s : L) : L :=
  scanOnceP m s.length none s

/-- The Markup Sanitizer `sanitizeLatexOutput` (utils.ts 62-126): the
twenty-two transforms in source order. -/
def sanitizeLatexOutput (text : L) : L :=
  let s1 := gStage bqMatcher text
  let s2 := gStage thinkBlockMatcher s1
  let s3 := gStage mdThinkMatcher s2
  let s4 := gStage mdThinkProcMatcher s3
  let s5 := onceStage (prefixLineMatcher (toL "Here is the content")) s4
  let s6 := onceStage (prefixLineMatcher (toL "Sure, here is the section")) s5
  let s7 := gStage thinkTagMatcher s6
  let s8 := anchorStripCI (toL "Abstract:") s7
  let s9 := anchorStripCI (toL "Title:") s8
  let s10 := onceStage (prefixLineMatcher (toL "Here is the abstract")) s9
  let s11 := onceStage (prefixLineMatcher (toL "Sure, here is the abstract")) s10
  let s12 := gStage boldMatcher s11
  let s13 := gStage (headerMatcher (toL "####") (toL "\\paragraph")) s12
  let s14 := gStage (headerMatcher (toL "###") (toL "\\subsubsection")) s13
  let s15 := gStage (headerMatcher (toL "##") (toL "\\subsection")) s14
  let s16 := gStage (headerMatcher (toL "#") (toL "\\section")) s15
  let s17 := gStage mathRepairMatcher s16
  let s18 := gStage (litGMatcher (toL "\\smalltriangleup") (toL "$\\triangle$") 'p') s17
  let s19 := gStage (litGMatcher (toL "\\checkmark") (toL "$\\checkmark$") 'k') s18
  let s20 := gStage textcolorMatcher s19
  let s21 := gStage colorMatcher s20
  gStage thetaMatcher s21

/-- First occurrence of an exact substring, split into before and after
(JS `includes` + single `replace` by a plain string). -/
def splitAtSub (pat : L) : Nat → L → Option (L × L)
  | 0, _ => none
  | fuel + 1, s =>
    match dropPfx pat s with
    | some r => some ([], r)
    | none =>
      match s with
      | [] => none
      | c :: rest => (splitAtSub pat fuel rest).map (fun p => (c :: p.1, p.2))

/-- Prefix match of the fuzzy pattern built from the patch original: every
whitespace run in the original matches any nonempty whitespace run, every
other character matches literally (the regex specials were escaped). -/
def fuzzyMatchPfx : Nat → L → L → Option L
  | 0, _, _ => none
  | _ + 1, [], t => some t
  | fuel + 1, p :: ps, t =>
    if isJsWs p then
      if t.takeWhile isJsWs = [] then none
      else fuzzyMatchPfx fuel ((p :: ps).dropWhile isJsWs)
        (t.drop (t.takeWhile isJsWs).length)
    else
      match t with
      | [] => none
      | c :: t2 => if c = p then fuzzyMatchPfx fuel ps t2 else none

/-- First position where the fuzzy pattern matches, split into before and
after (the `fuzzyRegex.test` + `replace` pair). -/
def fuzzyFind : Nat → L → L → Option (L × L)
  | 0, _, _ => none
  | fuel + 1, pat, s =>
    match fuzzyMatchPfx (pat.length + 1) pat s with
    | some r => some ([], r)
    | none =>
      match s with
      | [] => none
      | c :: rest => (fuzzyFind fuel pat rest).map (fun p => (c :: p.1, p.2))

/-- The Patch Applier `applyPatches` (utils.ts 684-719): exact match
substitutes the SANITIZED new text; the fuzzy whitespace-normalized match
substitutes the RAW new text; a patch with no match is skipped. -/
def applyPatches : L → List (L × L) → L
  | content, [] => content
  | content, (orig, neu) :: rest =>
    applyPatches
      (match splitAtSub orig (content.length + 1) content with
       | some p => p.1 ++ sanitizeLatexOutput neu ++ p.2
       | none =>
         match fuzzyFind (content.length + 1) orig content with
         | some p => p.1 ++ neu ++ p.2
         | none => content)
      rest

/-- C6: on the fuzzy whitespace-normalized branch the Patch Applier
substitutes the RAW patch text, not its sanitized form: with content two
spaces wide, original one space wide, and new text a blockquote line, the
fuzzy branch fires and the result is the raw blockquote line — which the
Markup Sanitizer (run by the exact branch, as the spec promises for both)
would have deleted entirely. -/
theorem applyPatches_fuzzy_raw :
    applyPatches (toL "a  b") [(toL "a b", toL "> x")] = toL "> x"
    ∧ sanitizeLatexOutput (toL "> x") = []
    ∧ toL "> x" ≠ ([] : L) :=
  ⟨rfl, rfl, by decide⟩

theorem char_le_toNat {a b : Char} (h : a ≤ b) : a.toNat ≤ b.toNat := by
  rw [Char.le_def] at h
  exact h

theorem lower_bounds {c : Char} (h1 : 'a' ≤ c) (h2 : c ≤ 'z') :
    97 ≤ c.toNat ∧ c.toNat ≤ 122 := by
  have ha : ('a' : Char).toNat = 97 := rfl
  have hz : ('z' : Char).toNat = 122 := rfl
  constructor
  · rw [← ha]; exact char_le_toNat h1
  · rw [← hz]; exact char_le_toNat h2

theorem toLower_lower {c : Char} (h1 : 'a' ≤ c) (h2 : c ≤ 'z') : c.toLower = c := by
  obtain ⟨hn1, _⟩ := lower_bounds h1 h2
  have hdef : c.toLower
      = if c.toNat ≥ 65 ∧ c.toNat ≤ 90 then Char.ofNat (c.toNat + 32) else c := rfl
  rw [hdef, if_neg (by omega)]

theorem lower_ne {c : Char} (h1 : 'a' ≤ c) (h2 : c ≤ 'z') (x : Char)
    (hx : ¬ (97 ≤ x.toNat ∧ x.toNat ≤ 122)) : ¬ (c = x) := by
  intro h
  obtain ⟨hn1, hn2⟩ := lower_bounds h1 h2
  rw [h] at hn1 hn2
  exact hx ⟨hn1, hn2⟩

theorem lower_not_spc {c : Char} (h1 : 'a' ≤ c) (h2 : c ≤ 'z') : isSpc c = false := by
  have k1 := decide_eq_false (lower_ne h1 h2 ' ' (by decide))
  have k2 := decide_eq_false (lower_ne h1 h2 '\t' (by decide))
  have k3 := decide_eq_false (lower_ne h1 h2 '\n' (by decide))
  have k4 := decide_eq_false (lower_ne h1 h2 '\x0d' (by decide))
  have k5 := decide_eq_false (lower_ne h1 h2 '\x0b' (by decide))
  have k6 := decide_eq_false (lower_ne h1 h2 '\x0c' (by decide))
  unfold isSpc
  rw [k1, k2, k3, k4, k5, k6]
  rfl

theorem lower_not_jsws {c : Char} (h1 : 'a' ≤ c) (h2 : c ≤ 'z') : isJsWs c = false := by
  obtain ⟨_, hn2⟩ := lower_bounds h1 h2
  have k0 := lower_not_spc h1 h2
  have k1 := decide_eq_false (lower_ne h1 h2 ' ' (by decide))
  have k2 := decide_eq_false (lower_ne h1 h2 ' ' (by decide))
  have k3 := decide_eq_false (lower_ne h1 h2 ' ' (by decide))
  have k4 := decide_eq_false (lower_ne h1 h2 ' ' (by decide))
  have k5 := decide_eq_false (lower_ne h1 h2 ' ' (by decide))
  have k6 := decide_eq_false (lower_ne h1 h2 ' ' (by decide))
  have k7 := decide_eq_false (lower_ne h1 h2 '　' (by decide))
  have k8 := decide_eq_false (lower_ne h1 h2 '﻿' (by decide))
  have kr : (' ' ≤ c && c ≤ ' ') = false := by
    have hr : ¬ (' ' ≤ c) := by
      intro hle
      have := char_le_toNat hle
      have h8 : (' ' : Char).toNat = 8192 := rfl
      rw [h8] at this
      omega
    simp [hr]
  unfold isJsWs
  rw [k0, k1, k2, kr, k3, k4, k5, k6, k7, k8]
  rfl

theorem dropPfxCI_forall {pat : L} :
    ∀ {t r : L}, dropPfxCI pat t = some r → ∀ p ∈ pat, ∃ c ∈ t, c.toLower = p.toLower := by
  induction pat with
  | nil => intro t r _ p hp; simp at hp
  | cons p0 ps ih =>
    intro t r h p hp
    cases t with
    | nil => simp [dropPfxCI] at h
    | cons c cs =>
      rw [dropPfxCI] at h
      by_cases hc : c.toLower = p0.toLower
      · rw [if_pos hc] at h
        rcases List.mem_cons.mp hp with hpp | hp'
        · subst hpp
          exact ⟨c, List.mem_cons_self c cs, hc⟩
        · obtain ⟨c', hc', he⟩ := ih h p hp'
          exact ⟨c', List.mem_cons_of_mem c hc', he⟩
      · rw [if_neg hc] at h
        simp at h

theorem dropPfxCI_none_of_lower {pat t : L} {q : Char} (hq : q ∈ pat)
    (hqn : ¬ ('a' ≤ q.toLower ∧ q.toLower ≤ 'z'))
    (ht : ∀ c ∈ t, 'a' ≤ c ∧ c ≤ 'z') : dropPfxCI pat t = none := by
  cases hd : dropPfxCI pat t with
  | none => rfl
  | some r =>
    exfalso
    obtain ⟨c, hc, hceq⟩ := dropPfxCI_forall hd q hq
    have hlc := toLower_lower (ht c hc).1 (ht c hc).2
    apply hqn
    rw [← hceq, hlc]
    exact ht c hc

theorem dropPfx_none_of_lower {pat : L} {p : Char} {ps : L} (hpat : pat = p :: ps)
    (hp : ¬ ('a' ≤ p ∧ p ≤ 'z')) {t : L} (ht : ∀ c ∈ t, 'a' ≤ c ∧ c ≤ 'z')
    (htne : t ≠ []) : dropPfx pat t = none := by
  cases t with
  | nil => exact absurd rfl htne
  | cons c r =>
    apply dropPfx_head_ne hpat
    intro hc
    subst hc
    exact hp (ht c (List.mem_cons_self c r))

theorem scanP_id (m : Option Char → L → Option (L × Option Char × L)) :
    ∀ (fuel : Nat) (prev : Option Char) (s : L),
      (∀ p t, t ≠ [] → t.IsSuffix s → m p t = none) → scanP m fuel prev s = s := by
  intro fuel
  induction fuel with
  | zero => intro prev s _; cases s <;> rfl
  | succ fuel ih =>
    intro prev s hm
    cases s with
    | nil => rfl
    | cons c rest =>
      rw [scanP, hm prev (c :: rest) (by simp) (List.suffix_refl _)]
      rw [ih (some c) rest (fun p t ht hsuf => hm p t ht (hsuf.trans (List.suffix_cons c rest)))]

theorem scanOnceP_id (m : Option Char → L → Option (L × L)) :
    ∀ (fuel : Nat) (prev : Option Char) (s : L),
      (∀ p t, t ≠ [] → t.IsSuffix s → m p t = none) → scanOnceP m fuel prev s = s := by
  intro fuel
  induction fuel with
  | zero => intro prev s _; cases s <;> rfl
  | succ fuel ih =>
    intro prev s hm
    cases s with
    | nil => rfl
    | cons c rest =>
      rw [scanOnceP, hm prev (c :: rest) (by simp) (List.suffix_refl _)]
      rw [ih (some c) rest (fun p t ht hsuf => hm p t ht (hsuf.trans (List.suffix_cons c rest)))]

theorem bqMatcher_none (prev : Option Char) (t : L) (htne : t ≠ [])
    (ht : ∀ c ∈ t, 'a' ≤ c ∧ c ≤ 'z') : bqMatcher prev t = none := by
  unfold bqMatcher
  by_cases hls : lineStart prev = true
  · rw [if_pos hls,
      dropPfx_none_of_lower (show (toL ">" : L) = '>' :: [] from by decide) (by decide) ht htne]
  · rw [if_neg hls]

theorem thinkBlockMatcher_none (prev : Option Char) (t : L)
    (ht : ∀ c ∈ t, 'a' ≤ c ∧ c ≤ 'z') : thinkBlockMatcher prev t = none := by
  unfold thinkBlockMatcher
  by_cases hls : lineStart prev = true
  · rw [if_pos hls, dropPfxCI_none_of_lower
      (show ' ' ∈ (toL "Thinking Process:" : L) from by decide) (by decide) ht]
  · rw [if_neg hls]

theorem mdThinkMatcher_none (prev : Option Char) (t : L) (htne : t ≠ [])
    (ht : ∀ c ∈ t, 'a' ≤ c ∧ c ≤ 'z') : mdThinkMatcher prev t = none := by
  unfold mdThinkMatcher
  by_cases hls : lineStart prev = true
  · rw [if_pos hls,
      dropPfx_none_of_lower (show (toL "*" : L) = '*' :: [] from by decide) (by decide) ht htne]
  · rw [if_neg hls]

theorem mdThinkProcMatcher_none (prev : Option Char) (t : L) (htne : t ≠ [])
    (ht : ∀ c ∈ t, 'a' ≤ c ∧ c ≤ 'z') : mdThinkProcMatcher prev t = none := by
  unfold mdThinkProcMatcher
  by_cases hls : lineStart prev = true
  · rw [if_pos hls,
      dropPfx_none_of_lower (show (toL "*" : L) = '*' :: [] from by decide) (by decide) ht htne]
  · rw [if_neg hls]

theorem prefixLineMatcher_none (pat : L) {q : Char} (hq : q ∈ pat)
    (hqn : ¬ ('a' ≤ q.toLower ∧ q.toLower ≤ 'z'))
    (prev : Option Char) (t : L) (ht : ∀ c ∈ t, 'a' ≤ c ∧ c ≤ 'z') :
    prefixLineMatcher pat prev t = none := by
  unfold prefixLineMatcher
  by_cases hls : lineStart prev = true
  · rw [if_pos hls, dropPfxCI_none_of_lower hq hqn ht]
  · rw [if_neg hls]

theorem thinkTagMatcher_none (prev : Option Char) (t : L)
    (ht : ∀ c ∈ t, 'a' ≤ c ∧ c ≤ 'z') : thinkTagMatcher prev t = none := by
  unfold thinkTagMatcher
  rw [dropPfxCI_none_of_lower
    (show '<' ∈ (toL "<think>" : L) from by decide) (by decide) ht]

theorem anchorStripCI_id (pat : L) {q : Char} (hq : q ∈ pat)
    (hqn : ¬ ('a' ≤ q.toLower ∧ q.toLower ≤ 'z'))
    (s : L) (hs : ∀ c ∈ s, 'a' ≤ c ∧ c ≤ 'z') : anchorStripCI pat s = s := by
  unfold anchorStripCI
  rw [dropPfxCI_none_of_lower hq hqn hs]

theorem boldMatcher_none (prev : Option Char) (t : L) (htne : t ≠ [])
    (ht : ∀ c ∈ t, 'a' ≤ c ∧ c ≤ 'z') : boldMatcher prev t = none := by
  unfold boldMatcher
  rw [dropPfx_none_of_lower (show (toL "**" : L) = '*' :: ['*'] from by decide)
    (by decide) ht htne]

theorem headerMatcher_none (tag cmd : L) {p : Char} {ps : L} (hpat : tag = p :: ps)
    (hp : ¬ ('a' ≤ p ∧ p ≤ 'z')) (prev : Option Char) (t : L) (htne : t ≠ [])
    (ht : ∀ c ∈ t, 'a' ≤ c ∧ c ≤ 'z') : headerMatcher tag cmd prev t = none := by
  unfold headerMatcher
  by_cases hls : lineStart prev = true
  · rw [if_pos hls]
    have hw : t.takeWhile isJsWs = [] := by
      cases t with
      | nil => rfl
      | cons c r =>
        rw [List.takeWhile_cons,
          if_neg (by simp [lower_not_jsws (ht c (List.mem_cons_self c r)).1
            (ht c (List.mem_cons_self c r)).2])]
    rw [hw]
    rw [show ([] : L).length = 0 from rfl, List.drop_zero]
    rw [dropPfx_none_of_lower hpat hp ht htne]
  · rw [if_neg hls]

theorem mathRepairMatcher_none (prev : Option Char) (t : L) (htne : t ≠ [])
    (ht : ∀ c ∈ t, 'a' ≤ c ∧ c ≤ 'z') : mathRepairMatcher prev t = none := by
  unfold mathRepairMatcher
  by_cases hbs : prev = some '\\'
  · rw [if_pos hbs]
  · rw [if_neg hbs,
      dropPfx_none_of_lower (show (toL "$" : L) = '$' :: [] from by decide) (by decide) ht htne]

theorem litGMatcher_none (pat repl : L) (ml : Char) {p : Char} {ps : L}
    (hpat : pat = p :: ps) (hp : ¬ ('a' ≤ p ∧ p ≤ 'z')) (prev : Option Char) (t : L)
    (htne : t ≠ []) (ht : ∀ c ∈ t, 'a' ≤ c ∧ c ≤ 'z') :
    litGMatcher pat repl ml prev t = none := by
  unfold litGMatcher
  rw [dropPfx_none_of_lower hpat hp ht htne]

theorem textcolorMatcher_none (prev : Option Char) (t : L) (htne : t ≠ [])
    (ht : ∀ c ∈ t, 'a' ≤ c ∧ c ≤ 'z') : textcolorMatcher prev t = none := by
  unfold textcolorMatcher
  rw [dropPfx_none_of_lower (show (toL "\\textcolor" : L) = '\\' :: toL "textcolor"
    from by decide) (by decide) ht htne]

theorem colorMatcher_none (prev : Option Char) (t : L) (htne : t ≠ [])
    (ht : ∀ c ∈ t, 'a' ≤ c ∧ c ≤ 'z') : colorMatcher prev t = none := by
  unfold colorMatcher
  rw [dropPfx_none_of_lower (show (toL "\\color" : L) = '\\' :: toL "color"
    from by decide) (by decide) ht htne]

theorem thetaMatcher_none (prev : Option Char) (t : L) (htne : t ≠ [])
    (ht : ∀ c ∈ t, 'a' ≤ c ∧ c ≤ 'z') : thetaMatcher prev t = none := by
  unfold thetaMatcher
  by_cases hd : prev = some '$'
  · rw [if_pos hd]
  · rw [if_neg hd,
      dropPfx_none_of_lower (show (toL "\\theta" : L) = '\\' :: toL "theta"
        from by decide) (by decide) ht htne]

theorem gStage_id {m : Option Char → L → Option (L × Option Char × L)} {s : L}
    (hm : ∀ p t, t ≠ [] → t.IsSuffix s → m p t = none) : gStage m s = s :=
  scanP_id m s.length none s hm

theorem onceStage_id {m : Option Char → L → Option (L × L)} {s : L}
    (hm : ∀ p t, t ≠ [] → t.IsSuffix s → m p t = none) : onceStage m s = s :=
  scanOnceP_id m s.length none s hm

theorem sanitize_id_lower (s : L) (h : ∀ c ∈ s, 'a' ≤ c ∧ c ≤ 'z') :
    sanitizeLatexOutput s = s := by
  have hsub : ∀ {t : L}, t.IsSuffix s → ∀ c ∈ t, 'a' ≤ c ∧ c ≤ 'z' :=
    fun hsuf c hc => h c (hsuf.subset hc)
  simp only [sanitizeLatexOutput]
  rw [gStage_id (fun p t ht hsuf => bqMatcher_none p t ht (hsub hsuf))]
  rw [gStage_id (fun p t _ hsuf => thinkBlockMatcher_none p t (hsub hsuf))]
  rw [gStage_id (fun p t ht hsuf => mdThinkMatcher_none p t ht (hsub hsuf))]
  rw [gStage_id (fun p t ht hsuf => mdThinkProcMatcher_none p t ht (hsub hsuf))]
  rw [onceStage_id (fun p t _ hsuf => prefixLineMatcher_none _
    (show ' ' ∈ (toL "Here is the content" : L) from by decide) (by decide) p t (hsub hsuf))]
  rw [onceStage_id (fun p t _ hsuf => prefixLineMatcher_none _
    (show ' ' ∈ (toL "Sure, here is the section" : L) from by decide) (by decide) p t
    (hsub hsuf))]
  rw [gStage_id (fun p t _ hsuf => thinkTagMatcher_none p t (hsub hsuf))]
  rw [anchorStripCI_id (toL "Abstract:")
    (show ':' ∈ (toL "Abstract:" : L) from by decide) (by decide) s h]
  rw [anchorStripCI_id (toL "Title:")
    (show ':' ∈ (toL "Title:" : L) from by decide) (by decide) s h]
  rw [onceStage_id (fun p t _ hsuf => prefixLineMatcher_none _
    (show ' ' ∈ (toL "Here is the abstract" : L) from by decide) (by decide) p t (hsub hsuf))]
  rw [onceStage_id (fun p t _ hsuf => prefixLineMatcher_none _
    (show ' ' ∈ (toL "Sure, here is the abstract" : L) from by decide) (by decide) p t
    (hsub hsuf))]
  rw [gStage_id (fun p t ht hsuf => boldMatcher_none p t ht (hsub hsuf))]
  rw [gStage_id (fun p t ht hsuf => headerMatcher_none _ _
    (show (toL "####" : L) = '#' :: toL "###" from by decide) (by decide) p t ht (hsub hsuf))]
  rw [gStage_id (fun p t ht hsuf => headerMatcher_none _ _
    (show (toL "###" : L) = '#' :: toL "##" from by decide) (by decide) p t ht (hsub hsuf))]
  rw [gStage_id (fun p t ht hsuf => headerMatcher_none _ _
    (show (toL "##" : L) = '#' :: toL "#" from by decide) (by decide) p t ht (hsub hsuf))]
  rw [gStage_id (fun p t ht hsuf => headerMatcher_none _ _
    (show (toL "#" : L) = '#' :: [] from by decide) (by decide) p t ht (hsub hsuf))]
  rw [gStage_id (fun p t ht hsuf => mathRepairMatcher_none p t ht (hsub hsuf))]
  rw [gStage_id (fun p t ht hsuf => litGMatcher_none _ _ _
    (show (toL "\\smalltriangleup" : L) = '\\' :: toL "smalltriangleup" from by decide)
    (by decide) p t ht (hsub hsuf))]
  rw [gStage_id (fun p t ht hsuf => litGMatcher_none _ _ _
    (show (toL "\\checkmark" : L) = '\\' :: toL "checkmark" from by decide)
    (by decide) p t ht (hsub hsuf))]
  rw [gStage_id (fun p t ht hsuf => textcolorMatcher_none p t ht (hsub hsuf))]
  rw [gStage_id (fun p t ht hsuf => colorMatcher_none p t ht (hsub hsuf))]
  rw [gStage_id (fun p t ht hsuf => thetaMatcher_none p t ht (hsub hsuf))]

/-- C4 counterexample: the Markup Sanitizer is NOT idempotent — the
checkmark transform has no look-around guard, so a first pass turns
`\checkmark` into `$\checkmark$` and a second pass wraps it again into
`$$\checkmark$$`. -/
theorem sanitizeLatexOutput_idem_cex :
    sanitizeLatexOutput (sanitizeLatexOutput (toL "\\checkmark"))
      ≠ sanitizeLatexOutput (toL "\\checkmark") := by
  have h1 : sanitizeLatexOutput (toL "\\checkmark") = toL "$\\checkmark$" := rfl
  have h2 : sanitizeLatexOutput (toL "$\\checkmark$") = toL "$$\\checkmark$$" := rfl
  rw [h1, h2]
  decide

/-- C4 (amended): the Markup Sanitizer is idempotent only where no
transform fires — on texts of plain lowercase ASCII letters it is the
identity, hence idempotent; the general idempotence claim is false (see the
`\checkmark` counterexample). -/
theorem sanitizeLatexOutput_idem_lower (s : L) (h : ∀ c ∈ s, 'a' ≤ c ∧ c ≤ 'z') :
    sanitizeLatexOutput s = s
    ∧ sanitizeLatexOutput (sanitizeLatexOutput s) = sanitizeLatexOutput s := by
  have hid : sanitizeLatexOutput s = s := sanitize_id_lower s h
  exact ⟨hid, by rw [hid]; exact hid⟩

theorem sanitizeLatexOutput_idem_lower_witness :
    sanitizeLatexOutput (toL "abc") = toL "abc"
    ∧ sanitizeLatexOutput (sanitizeLatexOutput (toL "abc"))
      = sanitizeLatexOutput (toL "abc") :=
  sanitizeLatexOutput_idem_lower (toL "abc") (by decide)

end Spec2Proof
